import Mathlib

/-
  Verification development for the chart-parsing engine of the course
  repository (morphological-patterns: operations.qmd and cky-parsing.qmd).

  The Python code is shallowly embedded into Lean:
  - Python sets of chart entries become duplicate-free lists with an
    insert-if-absent operation, preserving insertion order;
  - raising ValueError becomes returning `Except.error msg`;
  - the floats used for log-probabilities are modelled exactly over ℚ;
    since the source only ever adds log-probabilities (a product of
    probabilities) and combines them with logsumexp (a sum of
    probabilities), each log-probability is represented by its
    exponential, a rational number.  The value float(-inf), i.e.
    probability zero with no parse, is represented by `Option.none`
    where the source returns it directly.
-/

namespace CLParse

/-- Parse tree.  Modelled from the spec: the Tree class is used but never
defined in the source files; per the spec it is an ordered tree whose nodes
are labelled with grammar symbols, a node carrying a label and a list of
children. -/
inductive Tree where
  | node (label : String) (children : List Tree)
deriving Repr

mutual

/-- Boolean structural equality of trees. -/
def Tree.beq : Tree → Tree → Bool
  | .node l cs, .node l2 cs2 => l == l2 && Tree.beqList cs cs2

/-- Boolean structural equality of lists of trees. -/
def Tree.beqList : List Tree → List Tree → Bool
  | [], [] => true
  | a :: as, b :: bs => Tree.beq a b && Tree.beqList as bs
  | _, _ => false

end

mutual

theorem Tree.beq_iff : ∀ a b : Tree, (Tree.beq a b = true) ↔ a = b
  | .node l cs, .node l2 cs2 => by
    simp only [Tree.beq, Bool.and_eq_true, beq_iff_eq]
    rw [Tree.beqList_iff cs cs2]
    constructor
    · rintro ⟨h1, h2⟩; rw [h1, h2]
    · intro h; cases h; exact ⟨rfl, rfl⟩

theorem Tree.beqList_iff : ∀ as bs : List Tree, (Tree.beqList as bs = true) ↔ as = bs
  | [], [] => by simp [Tree.beqList]
  | a :: as, b :: bs => by
    simp only [Tree.beqList, Bool.and_eq_true]
    rw [Tree.beq_iff a b, Tree.beqList_iff as bs]
    constructor
    · rintro ⟨h1, h2⟩; rw [h1, h2]
    · intro h; cases h; exact ⟨rfl, rfl⟩
  | [], _ :: _ => by simp [Tree.beqList]
  | _ :: _, [] => by simp [Tree.beqList]

end

instance : DecidableEq Tree := fun a b => decidable_of_iff _ (Tree.beq_iff a b)

/-! ### Python collection helpers -/

/-- Adding an element to a Python set: a no-op when an equal element is
already present, otherwise the element is appended (sets are modelled as
duplicate-free lists in insertion order). -/
def insertE {α : Type} [DecidableEq α] (l : List α) (e : α) : List α :=
  if e ∈ l then l else l ++ [e]

/-- Building a Python set from an iterable: keep the first occurrence of
each element. -/
def pyDedup {α : Type} [DecidableEq α] (l : List α) : List α :=
  l.foldl insertE []

/-- Python list indexing: negative indices count from the end; an index out
of range yields none (an IndexError in the source). -/
def pyListGet {α : Type} (l : List α) (i : ℤ) : Option α :=
  if 0 ≤ i then l.get? i.toNat
  else if 0 ≤ i + l.length then l.get? (i + l.length).toNat
  else none

/-- Python zip of the even-indexed and odd-indexed elements of a list, as
used by zip(bps[0::2], bps[1::2]): a trailing unpaired element is dropped. -/
def zipPairs {α : Type} : List α → List (α × α)
  | a :: b :: rest => (a, b) :: zipPairs rest
  | _ => []

theorem insertE_subset {α : Type} [DecidableEq α] (l : List α) (e : α) :
    ∀ x ∈ l, x ∈ insertE l e := by
  intro x hx
  unfold insertE
  split
  · exact hx
  · exact List.mem_append_left _ hx

theorem mem_insertE {α : Type} [DecidableEq α] (l : List α) (e : α) :
    e ∈ insertE l e := by
  unfold insertE
  split
  · assumption
  · exact List.mem_append_right _ (List.mem_singleton.mpr rfl)

theorem mem_insertE_iff {α : Type} [DecidableEq α] (l : List α) (e x : α) :
    x ∈ insertE l e ↔ x ∈ l ∨ x = e := by
  unfold insertE
  split
  · rename_i h
    constructor
    · exact Or.inl
    · rintro (hx | rfl) <;> [exact hx; exact h]
  · simp [List.mem_append]

/-! ### Rules and context-free grammars (operations.qmd) -/

/-- A context free grammar rule: a left side variable and a right side
sequence of variables and terminals. -/
structure Rule where
  left_side : String
  right_side : List String
deriving DecidableEq, Repr

/-- A context free grammar: alphabet (terminals), variables (non-terminals),
rules and a start variable.  The Python constructor receives the rules as a
set; here the rule list is already duplicate-free in insertion order. -/
structure ContextFreeGrammar where
  alphabet : List String
  vars : List String
  rulesList : List Rule
  start_variable : String
deriving DecidableEq, Repr

/-- The rules method: all rules headed by the given left side. -/
def ContextFreeGrammar.rules (g : ContextFreeGrammar) (left_side : String) : List Rule :=
  g.rulesList.filter (fun r => r.left_side == left_side)

/-- The reduce method: the non-terminals that can be rewritten as the given
right side. -/
def ContextFreeGrammar.reduce (g : ContextFreeGrammar) (right_side : List String) : List String :=
  (g.rulesList.filter (fun r => r.right_side == right_side)).map (fun r => r.left_side)

/-- The validate_variables check shared by both grammar classes: the
alphabet and the variables must not overlap, and the start variable must be
a declared variable; a violation raises ValueError. -/
def validate_variables (alphabet vars : List String) (start_variable : String) :
    Except String Unit :=
  if alphabet.any (fun a => vars.contains a) then
    .error "alphabet and variables must not share elements"
  else if ¬ vars.contains start_variable then
    .error "start variable must be in set of variables"
  else .ok ()

/-- Construction of a plain context-free grammar: validate_variables runs at
construction time; the plain validate_rules check is a no-op in the source. -/
def mkContextFreeGrammar (alphabet vars : List String) (rules : List Rule)
    (start_variable : String) : Except String ContextFreeGrammar := do
  validate_variables alphabet vars start_variable
  .ok ⟨alphabet, vars, pyDedup rules, start_variable⟩

/-! ### Probabilistic rules and grammars (cky-parsing.qmd, PCFG part) -/

/-- A probabilistic context-free grammar rule.  The source stores a float
log-probability; `prob` is its exponential represented exactly as a
rational (see the header comment). -/
structure ProbabilisticRule where
  left_side : String
  right_side : List String
  prob : ℚ
deriving DecidableEq, Repr

/-- Rule equality and hashing in the source ignore the log-probability:
two probabilistic rules are the same set element iff they agree on both
sides.  The key records exactly the compared data. -/
def ProbabilisticRule.key (r : ProbabilisticRule) : Rule :=
  ⟨r.left_side, r.right_side⟩

/-- Adding a probabilistic rule to a Python set: dedup by key. -/
def insertPR (l : List ProbabilisticRule) (r : ProbabilisticRule) : List ProbabilisticRule :=
  if l.any (fun x => x.key == r.key) then l else l ++ [r]

/-- Building a Python set of probabilistic rules from an iterable. -/
def pyDedupPR (l : List ProbabilisticRule) : List ProbabilisticRule :=
  l.foldl insertPR []

/-- Rule well-formedness.  Modelled from the spec: the source calls
r.validate(alphabet, variables) inside validate_rules but never defines the
validate method; per the spec a rule has a non-terminal left side and every
right-side symbol drawn from terminals or non-terminals. -/
def ProbabilisticRule.validate (r : ProbabilisticRule) (alphabet vars : List String) :
    Except String Unit :=
  if vars.contains r.left_side
      && r.right_side.all (fun s => alphabet.contains s || vars.contains s) then
    .ok ()
  else .error "rule is not well formed"

/-- The tolerance test np.isclose(a, b, rtol=1e-5) with the numpy default
absolute tolerance 1e-8. -/
def npIsClose (a b : ℚ) : Bool :=
  |a - b| ≤ 1 / 100000000 + (1 / 100000) * |b|

/-- The sum, in probability space, of the probabilities of the rules headed
by the given non-terminal: the source computes np.exp(logsumexp(lps)). -/
def sumProb (rules : List ProbabilisticRule) (nt : String) : ℚ :=
  ((rules.filter (fun r => r.left_side == nt)).map (fun r => r.prob)).sum

/-- The distinct left sides of a rule list, in first-occurrence order (the
keys of the log_probs dict built by validate_rules). -/
def leftSides (rules : List ProbabilisticRule) : List String :=
  pyDedup (rules.map (fun r => r.left_side))

/-- The validate_rules check of the probabilistic grammar: every rule must be
well formed, and for each non-terminal the probabilities of its rules must
sum to 1 up to np.isclose tolerance, else ValueError. -/
def validate_rules (alphabet vars : List String) (rules : List ProbabilisticRule) :
    Except String Unit := do
  rules.forM (fun r => r.validate alphabet vars)
  match (leftSides rules).find? (fun nt => ! npIsClose (sumProb rules nt) 1) with
  | some nt => .error ("Rules for " ++ nt ++ " do not sum to 1.0")
  | none => .ok ()

/-- A probabilistic context-free grammar. -/
structure ProbabilisticContextFreeGrammar where
  alphabet : List String
  vars : List String
  rulesList : List ProbabilisticRule
  start_variable : String
deriving DecidableEq, Repr

/-- Construction of a probabilistic context-free grammar: the constructor
stores the members, then runs validate_variables, then validate_rules. -/
def mkProbabilisticContextFreeGrammar (alphabet vars : List String)
    (rules : List ProbabilisticRule) (start_variable : String) :
    Except String ProbabilisticContextFreeGrammar := do
  let rules := pyDedupPR rules
  validate_variables alphabet vars start_variable
  validate_rules alphabet vars rules
  .ok ⟨alphabet, vars, rules, start_variable⟩

/-- The probabilistic reduce method: all pairs of a non-terminal and the
probability of the rule rewriting it as the given right side. -/
def ProbabilisticContextFreeGrammar.reduce (g : ProbabilisticContextFreeGrammar)
    (right_side : List String) : List (String × ℚ) :=
  (g.rulesList.filter (fun r => r.right_side == right_side)).map
    (fun r => (r.left_side, r.prob))

/-! ### The plain CKY chart and parser (cky-parsing.qmd) -/

/-- A chart entry for a CKY chart: a symbol together with backpointers,
each a pair of a child symbol and a child span. -/
structure CKYChartEntry where
  symbol : String
  backpointers : List (String × (ℕ × ℕ))
deriving DecidableEq, Repr

/-- A chart for a CKY parser: an (n+1) by (n+1) table of cells, each cell a
set of chart entries. -/
structure CKYChart where
  input_size : ℕ
  chart : List (List (List CKYChartEntry))
deriving DecidableEq, Repr

/-- Chart construction: every cell starts out as the empty set. -/
def CKYChart.new (input_size : ℕ) : CKYChart :=
  ⟨input_size, List.replicate (input_size + 1) (List.replicate (input_size + 1) [])⟩

/-- The validate_index check of the CKY chart classes: reject the lower
triangle (i not less than j) and rows or columns the underlying Python
lists cannot index (both CKY chart classes use the identical code). -/
def validate_index {α : Type} (chart : List (List α)) (i j : ℤ) : Except String Unit :=
  if ¬ i < j then .error "cannot index into the lower triangle of the chart"
  else
    match pyListGet chart i with
    | none => .error "row index is too large"
    | some row =>
      match pyListGet row j with
      | none => .error "column index is too large"
      | some _ => .ok ()

/-- The getitem method shared by the CKY chart classes: validate the index,
then return the cell. -/
def gridGetitem {α : Type} (chart : List (List α)) (i j : ℤ) : Except String α := do
  validate_index chart i j
  match pyListGet chart i with
  | none => .error "row index is too large"
  | some row =>
    match pyListGet row j with
    | none => .error "column index is too large"
    | some cell => .ok cell

/-- Python list item assignment: none models an IndexError. -/
def pyListSet {α : Type} (l : List α) (i : ℤ) (a : α) : Option (List α) :=
  if 0 ≤ i then (if i < (l.length : ℤ) then some (l.set i.toNat a) else none)
  else if 0 ≤ i + l.length then some (l.set (i + l.length).toNat a) else none

/-- The setitem method shared by the CKY chart classes: it assigns directly
into the nested lists without calling validate_index. -/
def gridSetitem {α : Type} (chart : List (List α)) (i j : ℤ) (item : α) :
    Option (List (List α)) := do
  let row ← pyListGet chart i
  let row2 ← pyListSet row j item
  pyListSet chart i row2

def CKYChart.getitem (c : CKYChart) (i j : ℤ) : Except String (List CKYChartEntry) :=
  gridGetitem c.chart i j

def CKYChart.setitem (c : CKYChart) (i j : ℤ) (item : List CKYChartEntry) : Option CKYChart :=
  (gridSetitem c.chart i j item).map (fun ch => ⟨c.input_size, ch⟩)

/-- In-range cell read used inside chart filling, where every access is
within bounds and above the diagonal. -/
def cellGet {β : Type} (chart : List (List (List β))) (i j : ℕ) : List β :=
  (chart.getD i []).getD j []

/-- In-range cell update used inside chart filling. -/
def cellMod {β : Type} (chart : List (List (List β))) (i j : ℕ) (f : List β → List β) :
    List (List (List β)) :=
  chart.set i ((chart.getD i []).set j (f (cellGet chart i j)))

/-- CKY chart filling.  Modelled from the spec: CKYParser._fill_chart is
left as a student assignment in the source; this follows the CKY pseudocode
of the source and the base step of the spec, which inserts (A, [i,i+1))
with a backpointer to the terminal leaf, while the recursive step inserts
(A, [i,j)) with backpointers (B,[i,k)) and (C,[k,j)). -/
def CKYParser.fill_chart (g : ContextFreeGrammar) (string : List String) : CKYChart :=
  let n := string.length
  let base := (List.range n).foldl (fun ch i =>
    (g.reduce [string.getD i ""]).foldl (fun ch2 a =>
      cellMod ch2 i (i + 1)
        (fun cell => insertE cell ⟨a, [(string.getD i "", (i, i + 1))]⟩)) ch)
    (CKYChart.new n).chart
  let filled := (List.range' 2 (n - 1)).foldl (fun ch len =>
    (List.range (n - len + 1)).foldl (fun ch2 i =>
      let j := i + len
      (List.range' (i + 1) (len - 1)).foldl (fun ch3 k =>
        (cellGet ch3 i k).foldl (fun ch4 be =>
          (cellGet ch3 k j).foldl (fun ch5 ce =>
            (g.reduce [be.symbol, ce.symbol]).foldl (fun ch6 a =>
              cellMod ch6 i j (fun cell =>
                insertE cell ⟨a, [(be.symbol, (i, k)), (ce.symbol, (k, j))]⟩))
              ch5) ch4) ch3) ch2) ch) base
  ⟨n, filled⟩

/-- The recognize method of the plain CKY parser: fill the chart and test
whether the start variable appears in the top-right cell, which is read
through the validating getitem. -/
def CKYParser.recognize (g : ContextFreeGrammar) (string : List String) :
    Except String Bool := do
  let chart := CKYParser.fill_chart g string
  let cell ← chart.getitem 0 string.length
  .ok (cell.any (fun e => e.symbol == g.start_variable))

/-- The recursive construct_parses of the plain CKY chart: an entry without
backpointers is a leaf; otherwise the backpointers are paired off with
zip(bps[0::2], bps[1::2]) and each pair is expanded through the chart.  The
recursion is run on fuel; the source recursion is unbounded. -/
def CKYChart.construct_parses_from (c : CKYChart) :
    ℕ → CKYChartEntry → Except String (List Tree)
  | 0, _ => .error "maximum recursion depth exceeded"
  | fuel + 1, entry =>
    if entry.backpointers = [] then .ok [Tree.node entry.symbol []]
    else
      (zipPairs entry.backpointers).foldlM (fun parses pair => do
        let lcell ← c.getitem pair.1.2.1 pair.1.2.2
        let lentry ← (match lcell.find? (fun e => e.symbol == pair.1.1) with
          | some e => Except.ok e
          | none => Except.error "StopIteration")
        let rcell ← c.getitem pair.2.2.1 pair.2.2.2
        let rentry ← (match rcell.find? (fun e => e.symbol == pair.2.1) with
          | some e => Except.ok e
          | none => Except.error "StopIteration")
        let lparses ← c.construct_parses_from fuel lentry
        let rparses ← c.construct_parses_from fuel rentry
        .ok (lparses.foldl (fun acc lp =>
          rparses.foldl (fun acc2 rp =>
            insertE acc2 (Tree.node entry.symbol [lp, rp])) acc) parses))
        []

/-- The total number of entries stored in the chart, used as recursion fuel
for parse construction. -/
def CKYChart.totalEntries (c : CKYChart) : ℕ :=
  (c.chart.map (fun row => (row.map List.length).sum)).sum

/-- The parses property of the plain CKY chart: the set of parses gathered
from every entry of the top-right cell, with no filtering by symbol. -/
def CKYChart.parses (c : CKYChart) : Except String (List Tree) := do
  let top ← c.getitem 0 c.input_size
  top.foldlM (fun acc e => do
    let ps ← c.construct_parses_from (c.totalEntries + 1) e
    .ok (ps.foldl insertE acc)) []

/-- The parse method of the plain CKY parser. -/
def CKYParser.parse (g : ContextFreeGrammar) (string : List String) :
    Except String (List Tree) :=
  (CKYParser.fill_chart g string).parses

/-- The duck-typed dispatch of ContextFreeGrammarParser.__call__, shared by
the CKY and Earley parsers: any mode other than recognize and parse raises
ValueError without touching the grammar or the input. -/
def ContextFreeGrammarParser.call {ρ π : Type}
    (recognize : List String → ρ) (parse : List String → π)
    (string : List String) (mode : String) : Except String (ρ ⊕ π) :=
  if mode = "recognize" then .ok (.inl (recognize string))
  else if mode = "parse" then .ok (.inr (parse string))
  else .error "mode must be \"parse\" or \"recognize\""

/-! ### The probabilistic CKY parser (cky-parsing.qmd, PCFG part)

The probabilistic document redefines CKYChart, CKYChartEntry and CKYParser;
those live in the PCFG namespace here. -/

namespace PCFG

/-- A chart entry of the probabilistic CKY chart: a symbol, the probability
(the exponential of the stored log-probability, see the header comment) and
backpointers that are themselves chart entries. -/
inductive CKYChartEntry where
  | mk (symbol : String) (prob : ℚ) (backpointers : List CKYChartEntry)
deriving Repr

def CKYChartEntry.symbol : CKYChartEntry → String
  | .mk s _ _ => s

def CKYChartEntry.prob : CKYChartEntry → ℚ
  | .mk _ p _ => p

def CKYChartEntry.backpointers : CKYChartEntry → List CKYChartEntry
  | .mk _ _ bps => bps

mutual

/-- Entry equality in the source ignores the log-probability: two entries
are equal iff their symbols agree and their backpointers agree pairwise
(again up to log-probability). -/
def CKYChartEntry.pyEq : CKYChartEntry → CKYChartEntry → Bool
  | .mk s _ bps, .mk s2 _ bps2 => s == s2 && CKYChartEntry.pyEqList bps bps2

/-- Pairwise entry equality of backpointer lists. -/
def CKYChartEntry.pyEqList : List CKYChartEntry → List CKYChartEntry → Bool
  | [], [] => true
  | a :: as, b :: bs => CKYChartEntry.pyEq a b && CKYChartEntry.pyEqList as bs
  | _, _ => false

end

/-- Adding an entry to a cell (a Python set): a no-op when an equal entry
is already present. -/
def setAdd (cell : List CKYChartEntry) (e : CKYChartEntry) : List CKYChartEntry :=
  if cell.any (fun x => x.pyEq e) then cell else cell ++ [e]

/-- The keep_backtraces=False branch of the probabilistic _fill_chart: when
an entry for the symbol already exists, remove it and add an entry carrying
the combined probability (logsumexp in the source); otherwise add a fresh
entry with no backpointers. -/
def aggAdd (cell : List CKYChartEntry) (parent : String) (entry_prob : ℚ) :
    List CKYChartEntry :=
  match cell.find? (fun e => e.symbol == parent) with
  | some e0 =>
      setAdd (cell.eraseP (fun x => x.pyEq e0)) (.mk parent (e0.prob + entry_prob) [])
  | none => setAdd cell (.mk parent entry_prob [])

/-- The probabilistic CKY chart: an (n+1) by (n+1) table of cells. -/
def emptyChart (n : ℕ) : List (List (List CKYChartEntry)) :=
  List.replicate (n + 1) (List.replicate (n + 1) [])

/-- The base case of the probabilistic _fill_chart: for each position and
each non-terminal deriving the token there, an entry with the rule
probability whose sole backpointer is the terminal entry (stored with
log-probability 0.0, i.e. probability 1). -/
def CKYParser.base_chart (g : ProbabilisticContextFreeGrammar) (string : List String) :
    List (List (List CKYChartEntry)) :=
  (List.range' 1 string.length).foldl (fun ch j =>
    let i := j - 1
    (g.reduce [string.getD i ""]).foldl (fun ch2 sp =>
      cellMod ch2 i j (fun cell =>
        setAdd cell (.mk sp.1 sp.2 [.mk (string.getD i "") 1 []]))) ch)
    (emptyChart string.length)

/-- The probabilistic _fill_chart (the inside algorithm): starting from the
base chart, the recursive case combines pairs of child entries via reduce,
either keeping backtraces (set add, dedup by entry equality) or
aggregating probabilities per symbol. -/
def CKYParser.fill_chart (g : ProbabilisticContextFreeGrammar) (string : List String)
    (keep_backtraces : Bool) : List (List (List CKYChartEntry)) :=
  let n := string.length
  let base := CKYParser.base_chart g string
  (List.range' 2 (n - 1)).foldl (fun ch len =>
    (List.range (n - len + 1)).foldl (fun ch2 i =>
      let j := i + len
      (List.range' (i + 1) (len - 1)).foldl (fun ch3 k =>
        (cellGet ch3 i k).foldl (fun ch4 le =>
          (cellGet ch3 k j).foldl (fun ch5 re =>
            (g.reduce [le.symbol, re.symbol]).foldl (fun ch6 pr =>
              let entry_prob := pr.2 * le.prob * re.prob
              if keep_backtraces then
                cellMod ch6 i j (fun cell => setAdd cell (.mk pr.1 entry_prob [le, re]))
              else
                cellMod ch6 i j (fun cell => aggAdd cell pr.1 entry_prob))
              ch5) ch4) ch3) ch2) ch) base

/-- The probabilistic recognize method: fill the chart without backtraces
and combine, via logsumexp, the log-probabilities of the start-variable
entries of the top-right cell; none models the returned float(-inf) when
there are no such entries. -/
def CKYParser.recognize (g : ProbabilisticContextFreeGrammar) (string : List String) :
    Except String (Option ℚ) := do
  let chart := CKYParser.fill_chart g string false
  let cell ← gridGetitem chart 0 string.length
  let logprobs := (cell.filter (fun e => e.symbol == g.start_variable)).map
    (fun e => e.prob)
  if logprobs.isEmpty then .ok none else .ok (some logprobs.sum)

mutual

/-- The probabilistic _build_tree: a node labelled with the entry symbol
whose children are built from the backpointers (a leaf when there are
none). -/
def CKYParser.build_tree : CKYChartEntry → Tree
  | .mk s _ bps => .node s (CKYParser.build_trees bps)

/-- The trees built from a list of backpointer entries. -/
def CKYParser.build_trees : List CKYChartEntry → List Tree
  | [] => []
  | e :: es => CKYParser.build_tree e :: CKYParser.build_trees es

end

/-- The probabilistic parse method: fill the chart with backtraces and
return the (tree, log-probability) pairs of the start-variable entries of
the top-right cell. -/
def CKYParser.parse (g : ProbabilisticContextFreeGrammar) (string : List String) :
    Except String (List (Tree × ℚ)) := do
  let chart := CKYParser.fill_chart g string true
  let cell ← gridGetitem chart 0 string.length
  .ok ((cell.filter (fun e => e.symbol == g.start_variable)).map
    (fun e => (CKYParser.build_tree e, e.prob)))

/-- The probabilistic CKYParser.__call__ dispatch, with the same mode check
as the duck-typed base parser. -/
def CKYParser.call (g : ProbabilisticContextFreeGrammar) (string : List String)
    (mode : String) : Except String ((Option ℚ) ⊕ List (Tree × ℚ)) :=
  if mode = "recognize" then (CKYParser.recognize g string).map .inl
  else if mode = "parse" then (CKYParser.parse g string).map .inr
  else .error "mode must be \"parse\" or \"recognize\""

end PCFG

/-! ### The Earley parser (operations.qmd) -/

/-- A dotted rule: a rule, the span covered so far, and the dot position. -/
structure DottedRule where
  rule : Rule
  span : ℕ × ℕ
  dot : ℕ
deriving DecidableEq, Repr

def DottedRule.left_side (d : DottedRule) : String :=
  d.rule.left_side

def DottedRule.is_complete (d : DottedRule) : Bool :=
  d.dot == d.rule.right_side.length

/-- The symbol after the dot.  The source raises AttributeError on a
complete dotted rule; the method is only ever called on incomplete ones,
and the default value here is never produced in those uses. -/
def DottedRule.next_symbol (d : DottedRule) : String :=
  d.rule.right_side.getD d.dot ""

/-- Advancing the dot of a dotted rule, extending the span to the new left
edge: a new dotted rule is returned. -/
def DottedRule.complete (d : DottedRule) (new_left_edge : ℕ) : DottedRule :=
  ⟨d.rule, (d.span.1, new_left_edge), d.dot + 1⟩

/-- A chart entry for an Earley chart: a dotted rule plus backpointers. -/
structure EarleyChartEntry where
  dotted_rule : DottedRule
  backpointers : List (String × ℕ)
deriving DecidableEq, Repr

def EarleyChartEntry.next_symbol (e : EarleyChartEntry) : String :=
  e.dotted_rule.next_symbol

def EarleyChartEntry.span (e : EarleyChartEntry) : ℕ × ℕ :=
  e.dotted_rule.span

def EarleyChartEntry.is_complete (e : EarleyChartEntry) : Bool :=
  e.dotted_rule.is_complete

/-- Completing an entry with another entry: a new entry with the dot
advanced and a backpointer appended.  The source method receives the
completing entry but never uses it; the appended backpointer records the
next symbol of the waiting entry together with the right edge of the
waiting entry (which is where the completing child starts). -/
def EarleyChartEntry.complete (e : EarleyChartEntry) (entry : EarleyChartEntry)
    (new_left_edge : ℕ) : EarleyChartEntry :=
  ⟨e.dotted_rule.complete new_left_edge,
   e.backpointers ++ [(e.dotted_rule.next_symbol, e.dotted_rule.span.2)]⟩

/-- Whether this entry completes the other entry: the left side of this
dotted rule equals the next symbol the other entry is waiting for. -/
def EarleyChartEntry.is_completion_of (e other : EarleyChartEntry) : Bool :=
  e.dotted_rule.left_side == other.next_symbol

/-- An Earley chart: one set of entries per position 0..n. -/
abbrev EarleyChart := List (List EarleyChartEntry)

/-- Adding an entry to the set at a chart position. -/
def chartAdd (chart : EarleyChart) (pos : ℕ) (e : EarleyChartEntry) : EarleyChart :=
  chart.set pos (insertE (chart.getD pos []) e)

/-- The predict operation: for every rule headed by the next symbol of the
entry, add a fresh dotted rule at the current position. -/
def EarleyParser.predict (g : ContextFreeGrammar) (chart : EarleyChart)
    (entry : EarleyChartEntry) (position : ℕ) : EarleyChart :=
  (g.rules entry.next_symbol).foldl (fun ch rule =>
    chartAdd ch position ⟨⟨rule, (position, position), 0⟩, []⟩) chart

/-- The scan operation: when the input token at the position equals the
expected terminal, add a completed terminal entry and the completed waiting
entry at the next position. -/
def EarleyParser.scan (string : List String) (chart : EarleyChart)
    (entry : EarleyChartEntry) (position : ℕ) : EarleyChart :=
  let word := string.getD position ""
  let expected := entry.next_symbol
  if word == expected then
    let rule : Rule := ⟨expected, [word]⟩
    let dotted_rule : DottedRule := ⟨rule, (position, position + 1), 1⟩
    let terminal_entry : EarleyChartEntry := ⟨dotted_rule, []⟩
    let completed_entry := entry.complete terminal_entry (position + 1)
    chartAdd (chartAdd chart (position + 1) terminal_entry) (position + 1) completed_entry
  else chart

/-- The complete operation: for every incomplete entry at the start of the
completed entry that is waiting for its left side, add the advanced entry
at the current position. -/
def EarleyParser.complete (chart : EarleyChart) (entry : EarleyChartEntry)
    (position : ℕ) : EarleyChart :=
  ((chart.getD entry.span.1 []).filter
      (fun prev => ¬ prev.is_complete && entry.is_completion_of prev)).foldl
    (fun ch prev => chartAdd ch position (prev.complete entry entry.span.2)) chart

/-- Processing one entry at a position, per the _fill_chart pseudocode:
predict when the dot precedes a non-terminal, scan when it precedes a
terminal and input remains, complete when the entry is complete. -/
def EarleyParser.processEntry (g : ContextFreeGrammar) (string : List String)
    (position : ℕ) (chart : EarleyChart) (entry : EarleyChartEntry) : EarleyChart :=
  if ¬ entry.is_complete then
    if g.vars.contains entry.next_symbol then
      EarleyParser.predict g chart entry position
    else if position < string.length then
      EarleyParser.scan string chart entry position
    else chart
  else EarleyParser.complete chart entry position

/-- One pass of the closure loop at a position: process a snapshot of the
entries currently at the position. -/
def EarleyParser.stepAt (g : ContextFreeGrammar) (string : List String)
    (position : ℕ) (chart : EarleyChart) : EarleyChart :=
  (chart.getD position []).foldl (EarleyParser.processEntry g string position) chart

/-- The repeat-until-no-change loop at a position, run on fuel.  The Bool
records whether the loop stopped because the position stopped changing
(true) rather than because the fuel ran out (false). -/
def EarleyParser.closeAt (g : ContextFreeGrammar) (string : List String)
    (position : ℕ) : ℕ → EarleyChart → EarleyChart × Bool
  | 0, chart => (chart, false)
  | fuel + 1, chart =>
    let next := EarleyParser.stepAt g string position chart
    if next.getD position [] = chart.getD position [] then (next, true)
    else EarleyParser.closeAt g string position fuel next

/-- The rules that can appear in a dotted rule during a parse: the grammar
rules together with the terminal rules the scan operation fabricates from
input tokens. -/
def earleyRules (g : ContextFreeGrammar) (string : List String) : List Rule :=
  g.rulesList ++ (pyDedup string).map (fun w => (⟨w, [w]⟩ : Rule))

/-- The longest right side among those rules. -/
def maxRhsLen (g : ContextFreeGrammar) (string : List String) : ℕ :=
  ((earleyRules g string).map (fun r => r.right_side.length)).foldl max 0

/-- The symbols that can appear in a backpointer: every symbol mentioned by
those rules. -/
def bpSymbols (g : ContextFreeGrammar) (string : List String) : List String :=
  pyDedup ((earleyRules g string).flatMap (fun r => r.left_side :: r.right_side))

/-- Fuel for the closure loop: an arithmetic overapproximation of the
number of distinct derivable chart entries, plus one. -/
def earleyFuel (g : ContextFreeGrammar) (string : List String) : ℕ :=
  let n := string.length
  let R := (earleyRules g string).length
  let D := maxRhsLen g string
  let S := (bpSymbols g string).length
  R * (n + 1) * (n + 1) * (D + 1) * (S * (n + 1) + 1) ^ D + 1

/-- The initial chart: position 0 holds a dotted rule for every
start-variable rule, every other position is empty. -/
def EarleyParser.init_chart (g : ContextFreeGrammar) (string : List String) : EarleyChart :=
  (g.rules g.start_variable).foldl (fun ch rule =>
    chartAdd ch 0 ⟨⟨rule, (0, 0), 0⟩, []⟩) (List.replicate (string.length + 1) [])

/-- The _fill_chart method, following the pseudocode in the source:
initialize position 0 with a dotted rule for every start-variable rule,
then close every position 0..n in turn.  The Bool is true iff every
closure loop reached its fixed point within the fuel. -/
def EarleyParser.fill_chart (g : ContextFreeGrammar) (string : List String) :
    EarleyChart × Bool :=
  (List.range (string.length + 1)).foldl (fun acc i =>
    let res := EarleyParser.closeAt g string i (earleyFuel g string) acc.1
    (res.1, acc.2 && res.2)) (EarleyParser.init_chart g string, true)

/-- The recognize method of the Earley parser: the string is recognized iff
the last chart position holds a complete entry for the start variable
spanning the whole input. -/
def EarleyParser.recognize (g : ContextFreeGrammar) (string : List String) : Bool :=
  let chart := (EarleyParser.fill_chart g string).1
  (chart.getLastD []).any (fun e =>
    e.dotted_rule.left_side == g.start_variable
    && decide (e.dotted_rule.span = (0, string.length))
    && e.dotted_rule.is_complete)

/-- Construction of the parse implied by an entry.  Modelled from the spec:
_construct_parses is left as an assignment; per the pseudocode in the
source, the node is labelled with the left side of the entry, and for each
backpointer (symbol, position) the first complete entry with that left side
at chart[position] contributes a recursively built child (no child when
none matches).  The recursion is run on fuel. -/
def EarleyParser.construct_parses (chart : EarleyChart) :
    ℕ → EarleyChartEntry → Tree
  | 0, entry => Tree.node entry.dotted_rule.left_side []
  | fuel + 1, entry =>
    Tree.node entry.dotted_rule.left_side
      (entry.backpointers.foldl (fun acc bp =>
        match (chart.getD bp.2 []).find? (fun pc =>
            pc.dotted_rule.left_side == bp.1 && pc.is_complete) with
        | some child => acc ++ [EarleyParser.construct_parses chart fuel child]
        | none => acc) [])

/-- The total number of entries in an Earley chart, used as fuel for parse
construction. -/
def EarleyChart.totalEntries (chart : EarleyChart) : ℕ :=
  (chart.map List.length).sum

/-- The parses property of the Earley chart: one parse for every complete
entry for the start variable spanning the whole input found at the last
position, gathered as a set. -/
def EarleyChart.parses (chart : EarleyChart) (start_variable : String)
    (input_size : ℕ) : List Tree :=
  (chart.getLastD []).foldl (fun acc entry =>
    if entry.dotted_rule.left_side == start_variable
        && decide (entry.dotted_rule.span = (0, input_size))
        && entry.dotted_rule.is_complete then
      insertE acc (EarleyParser.construct_parses chart (EarleyChart.totalEntries chart + 1) entry)
    else acc) []

/-- The parse method of the Earley parser. -/
def EarleyParser.parse (g : ContextFreeGrammar) (string : List String) : List Tree :=
  let chart := (EarleyParser.fill_chart g string).1
  EarleyChart.parses chart g.start_variable (chart.length - 1)

/-! ### Example grammars from the source -/

/-- The unhappiness grammar of the worked examples in both source files. -/
def unhappinessGrammar : ContextFreeGrammar :=
  ⟨["un", "happy", "ness"], ["Word", "Adj", "N", "Prefix", "Suffix"],
   [⟨"Adj", ["happy"]⟩, ⟨"Prefix", ["un"]⟩, ⟨"Suffix", ["ness"]⟩,
    ⟨"Adj", ["Prefix", "Adj"]⟩, ⟨"N", ["Adj", "Suffix"]⟩, ⟨"Word", ["N"]⟩],
   "Word"⟩

/-- The parse tree the worked examples document for unhappiness. -/
def unhappinessTree : Tree :=
  .node "Word" [.node "N"
    [.node "Adj" [.node "Prefix" [.node "un" []], .node "Adj" [.node "happy" []]],
     .node "Suffix" [.node "ness" []]]]

/-- A one-rule grammar in Chomsky Normal Form whose start variable derives
the single token directly. -/
def wordUnGrammar : ContextFreeGrammar :=
  ⟨["un"], ["Word"], [⟨"Word", ["un"]⟩], "Word"⟩

/-- A small ambiguous probabilistic grammar in Chomsky Normal Form: the
token pair (a, b) has two derivations, exercising the probability
aggregation path. -/
def ambiguousPCFG : ProbabilisticContextFreeGrammar :=
  ⟨["a", "b"], ["S", "A", "B", "D"],
   [⟨"S", ["A", "B"], 1/2⟩, ⟨"S", ["A", "D"], 1/2⟩,
    ⟨"A", ["a"], 1⟩, ⟨"B", ["b"], 1⟩, ⟨"D", ["b"], 1⟩], "S"⟩

/-- A probabilistic rule set whose probabilities for the non-terminal A sum
to 1 + 1.0005e-5: outside a strict relative tolerance of 1e-5, yet inside
the np.isclose envelope 1e-5 + 1e-8. -/
def toleranceRules : List ProbabilisticRule :=
  [⟨"A", ["a"], 1/2⟩, ⟨"A", ["a", "a"], 1/2 + 10005/1000000000⟩]

/-! ### Supporting lemmas -/

theorem pyListGet_natCast {α : Type} (l : List α) (i : ℕ) :
    pyListGet l (i : ℤ) = l.get? i := by
  unfold pyListGet
  rw [if_pos (Int.natCast_nonneg i)]
  rfl

theorem pyListGet_replicate {α : Type} (m : ℕ) (x : α) (i : ℕ) :
    pyListGet (List.replicate m x) (i : ℤ) = if i < m then some x else none := by
  rw [pyListGet_natCast]
  simp [List.get?_eq_getElem?, List.getElem?_replicate]

/-- Reading a fresh CKY chart through the validating getitem: the lower
triangle and out-of-range rows and columns raise ValueError, every other
cell is returned (and is empty). -/
theorem gridGetitem_new (n i j : ℕ) :
    gridGetitem (CKYChart.new n).chart (i : ℤ) (j : ℤ)
      = if j ≤ i then .error "cannot index into the lower triangle of the chart"
        else if n + 1 ≤ i then .error "row index is too large"
        else if n + 1 ≤ j then .error "column index is too large"
        else .ok [] := by
  unfold gridGetitem validate_index CKYChart.new
  by_cases hij : j ≤ i
  · have hz : ¬ (i : ℤ) < (j : ℤ) := by exact_mod_cast not_lt.mpr hij
    rw [if_pos hz, if_pos hij]
    rfl
  · have hz : (i : ℤ) < (j : ℤ) := by exact_mod_cast lt_of_not_le hij
    rw [if_neg (not_not_intro hz), if_neg hij]
    rw [pyListGet_replicate]
    by_cases hi : n + 1 ≤ i
    · rw [if_neg (not_lt.mpr hi), if_pos hi]
      rfl
    · rw [if_pos (lt_of_not_le hi), if_neg hi]
      dsimp only
      rw [pyListGet_replicate]
      by_cases hj : n + 1 ≤ j
      · rw [if_neg (not_lt.mpr hj), if_pos hj]
        rfl
      · rw [if_pos (lt_of_not_le hj), if_neg hj]
        rfl

/-- A foldl preserves any invariant its step function preserves. -/
theorem foldl_preserve {α β : Type} (P : β → Prop) (f : β → α → β)
    (l : List α) (b : β) (hb : P b) (hf : ∀ b a, P b → P (f b a)) : P (l.foldl f b) := by
  induction l generalizing b with
  | nil => exact hb
  | cons a l ih => exact ih _ (hf _ _ hb)

theorem chartAdd_length (ch : EarleyChart) (pos : ℕ) (e : EarleyChartEntry) :
    (chartAdd ch pos e).length = ch.length := by
  unfold chartAdd
  exact List.length_set ch pos _

theorem predict_length (g : ContextFreeGrammar) (ch : EarleyChart)
    (e : EarleyChartEntry) (position : ℕ) :
    (EarleyParser.predict g ch e position).length = ch.length := by
  unfold EarleyParser.predict
  exact foldl_preserve (fun c : EarleyChart => c.length = ch.length) _ _ _ rfl
    (fun c a hc => (chartAdd_length _ _ _).trans hc)

theorem scan_length (string : List String) (ch : EarleyChart)
    (e : EarleyChartEntry) (position : ℕ) :
    (EarleyParser.scan string ch e position).length = ch.length := by
  simp only [EarleyParser.scan]
  split
  · rw [chartAdd_length, chartAdd_length]
  · rfl

theorem complete_length (ch : EarleyChart) (e : EarleyChartEntry) (position : ℕ) :
    (EarleyParser.complete ch e position).length = ch.length := by
  unfold EarleyParser.complete
  exact foldl_preserve (fun c : EarleyChart => c.length = ch.length) _ _ _ rfl
    (fun c a hc => (chartAdd_length _ _ _).trans hc)

theorem processEntry_length (g : ContextFreeGrammar) (string : List String) (position : ℕ)
    (ch : EarleyChart) (e : EarleyChartEntry) :
    (EarleyParser.processEntry g string position ch e).length = ch.length := by
  unfold EarleyParser.processEntry
  split
  · split
    · exact predict_length g ch e position
    · split
      · exact scan_length string ch e position
      · rfl
  · exact complete_length ch e position

theorem stepAt_length (g : ContextFreeGrammar) (string : List String) (position : ℕ)
    (ch : EarleyChart) :
    (EarleyParser.stepAt g string position ch).length = ch.length := by
  unfold EarleyParser.stepAt
  exact foldl_preserve (fun c : EarleyChart => c.length = ch.length) _ _ _ rfl
    (fun c a hc => (processEntry_length _ _ _ _ _).trans hc)

theorem closeAt_length (g : ContextFreeGrammar) (string : List String) (position : ℕ) :
    ∀ (fuel : ℕ) (ch : EarleyChart),
    ((EarleyParser.closeAt g string position fuel ch).1).length = ch.length := by
  intro fuel
  induction fuel with
  | zero => intro ch; rfl
  | succ f ih =>
    intro ch
    simp only [EarleyParser.closeAt]
    split
    · exact stepAt_length g string position ch
    · rw [ih, stepAt_length]

theorem init_chart_length (g : ContextFreeGrammar) (string : List String) :
    (EarleyParser.init_chart g string).length = string.length + 1 := by
  unfold EarleyParser.init_chart
  refine foldl_preserve (fun c : EarleyChart => c.length = string.length + 1) _ _ _ ?_
    (fun c a hc => (chartAdd_length _ _ _).trans hc)
  exact List.length_replicate _ _

theorem fill_chart_length (g : ContextFreeGrammar) (string : List String) :
    ((EarleyParser.fill_chart g string).1).length = string.length + 1 := by
  unfold EarleyParser.fill_chart
  exact foldl_preserve (fun acc : EarleyChart × Bool => acc.1.length = string.length + 1)
    _ _ _ (init_chart_length g string) (fun acc i hacc => by simpa [closeAt_length] using hacc)

theorem getLastD_eq_getD {α : Type} (l : List α) (d : α) :
    l.getLastD d = l.getD (l.length - 1) d := by
  rw [List.getLastD_eq_getLast?, List.getLast?_eq_getElem?]
  simp [List.getD]

/-- The shared validate_variables check raises ValueError exactly when the
alphabet overlaps the variables or the start variable is undeclared. -/
theorem validate_variables_error_iff (alphabet vars : List String) (start_variable : String) :
    (∃ msg, validate_variables alphabet vars start_variable = .error msg)
      ↔ ((∃ a ∈ alphabet, a ∈ vars) ∨ start_variable ∉ vars) := by
  unfold validate_variables
  by_cases h1 : alphabet.any (fun a => vars.contains a)
  · rw [if_pos h1]
    simp only [List.any_eq_true, List.elem_iff] at h1
    constructor
    · intro _; exact Or.inl (by simpa using h1)
    · intro _; exact ⟨_, rfl⟩
  · rw [if_neg h1]
    simp only [List.any_eq_true] at h1
    push_neg at h1
    by_cases h2 : vars.contains start_variable
    · rw [if_neg (by simpa using h2)]
      constructor
      · rintro ⟨msg, hmsg⟩; cases hmsg
      · rintro (⟨a, ha, hav⟩ | hs)
        · exact absurd ((List.elem_iff).mpr hav) (by simpa using h1 a ha)
        · exact absurd ((List.elem_iff).mp (by simpa using h2)) hs
    · rw [if_pos (by simpa using h2)]
      constructor
      · intro _
        refine Or.inr (fun hs => ?_)
        exact h2 (by simpa [List.elem_iff] using hs)
      · intro _; exact ⟨_, rfl⟩

theorem getD_set_self {α : Type} (l : List α) (i : ℕ) (v d : α) (h : i < l.length) :
    (l.set i v).getD i d = v := by
  simp [List.getD, List.getElem?_set_self, h]

theorem getD_set_ne {α : Type} (l : List α) (i j : ℕ) (v d : α) (h : i ≠ j) :
    (l.set i v).getD j d = l.getD j d := by
  simp [List.getD, List.getElem?_set_ne, h]

theorem mem_getD_set {α : Type} (l : List (List α)) (pos j : ℕ) (v : List α)
    (hv : ∀ x ∈ l.getD pos [], x ∈ v) (x : α) (hx : x ∈ l.getD j []) :
    x ∈ (l.set pos v).getD j [] := by
  by_cases hpl : pos < l.length
  · by_cases hj : pos = j
    · subst hj
      rw [getD_set_self _ _ _ _ hpl]
      exact hv x hx
    · rw [getD_set_ne _ _ _ _ _ hj]
      exact hx
  · rw [List.set_eq_of_length_le (le_of_not_lt hpl)]
    exact hx

theorem mem_chartAdd (ch : EarleyChart) (pos : ℕ) (e : EarleyChartEntry)
    (j : ℕ) (x : EarleyChartEntry) (hx : x ∈ ch.getD j []) :
    x ∈ (chartAdd ch pos e).getD j [] := by
  unfold chartAdd
  exact mem_getD_set ch pos j _ (fun y hy => insertE_subset _ _ y hy) x hx

theorem mem_processEntry (g : ContextFreeGrammar) (string : List String) (position : ℕ)
    (ch : EarleyChart) (e : EarleyChartEntry) (j : ℕ) (x : EarleyChartEntry)
    (hx : x ∈ ch.getD j []) :
    x ∈ (EarleyParser.processEntry g string position ch e).getD j [] := by
  unfold EarleyParser.processEntry EarleyParser.predict
  split
  · split
    · exact foldl_preserve (fun c : EarleyChart => x ∈ c.getD j []) _ _ _ hx
        (fun c a hc => mem_chartAdd c position _ j x hc)
    · split
      · simp only [EarleyParser.scan]
        split
        · exact mem_chartAdd _ _ _ j x (mem_chartAdd _ _ _ j x hx)
        · exact hx
      · exact hx
  · unfold EarleyParser.complete
    exact foldl_preserve (fun c : EarleyChart => x ∈ c.getD j []) _ _ _ hx
      (fun c a hc => mem_chartAdd c position _ j x hc)

theorem mem_stepAt (g : ContextFreeGrammar) (string : List String) (position : ℕ)
    (ch : EarleyChart) (j : ℕ) (x : EarleyChartEntry) (hx : x ∈ ch.getD j []) :
    x ∈ (EarleyParser.stepAt g string position ch).getD j [] := by
  unfold EarleyParser.stepAt
  exact foldl_preserve (fun c : EarleyChart => x ∈ c.getD j []) _ _ _ hx
    (fun c a hc => mem_processEntry g string position c a j x hc)

theorem mem_closeAt (g : ContextFreeGrammar) (string : List String) (position : ℕ) :
    ∀ (fuel : ℕ) (ch : EarleyChart) (j : ℕ) (x : EarleyChartEntry),
    x ∈ ch.getD j [] → x ∈ ((EarleyParser.closeAt g string position fuel ch).1).getD j [] := by
  intro fuel
  induction fuel with
  | zero => intro ch j x hx; exact hx
  | succ f ih =>
    intro ch j x hx
    simp only [EarleyParser.closeAt]
    split
    · exact mem_stepAt g string position ch j x hx
    · exact ih _ j x (mem_stepAt g string position ch j x hx)

theorem mem_cellMod {β : Type} (ch : List (List (List β))) (i j : ℕ)
    (f : List β → List β) (hf : ∀ cell, ∀ x ∈ cell, x ∈ f cell)
    (i2 j2 : ℕ) (x : β) (hx : x ∈ cellGet ch i2 j2) :
    x ∈ cellGet (cellMod ch i j f) i2 j2 := by
  unfold cellMod
  unfold cellGet at hx ⊢
  by_cases hi : i < ch.length
  · by_cases hii : i = i2
    · subst hii
      rw [getD_set_self _ _ _ _ hi]
      exact mem_getD_set _ j j2 _ (fun y hy => hf _ y hy) x hx
    · rw [getD_set_ne _ _ _ _ _ hii]
      exact hx
  · rw [List.set_eq_of_length_le (le_of_not_lt hi)]
    exact hx

theorem setAdd_subset (cell : List PCFG.CKYChartEntry) (e : PCFG.CKYChartEntry) :
    ∀ x ∈ cell, x ∈ PCFG.setAdd cell e := by
  intro x hx
  unfold PCFG.setAdd
  split
  · exact hx
  · exact List.mem_append_left _ hx

theorem mem_fill_chart_of_mem_base (g : ProbabilisticContextFreeGrammar)
    (string : List String) (i j : ℕ) (x : PCFG.CKYChartEntry)
    (hx : x ∈ cellGet (PCFG.CKYParser.base_chart g string) i j) :
    x ∈ cellGet (PCFG.CKYParser.fill_chart g string true) i j := by
  unfold PCFG.CKYParser.fill_chart
  refine foldl_preserve (fun c => x ∈ cellGet c i j) _ _ _ hx (fun c len hc => ?_)
  refine foldl_preserve (fun c => x ∈ cellGet c i j) _ _ _ hc (fun c2 i0 hc2 => ?_)
  refine foldl_preserve (fun c => x ∈ cellGet c i j) _ _ _ hc2 (fun c3 k hc3 => ?_)
  refine foldl_preserve (fun c => x ∈ cellGet c i j) _ _ _ hc3 (fun c4 le hc4 => ?_)
  refine foldl_preserve (fun c => x ∈ cellGet c i j) _ _ _ hc4 (fun c5 re hc5 => ?_)
  refine foldl_preserve (fun c => x ∈ cellGet c i j) _ _ _ hc5 (fun c6 pr hc6 => ?_)
  rw [if_pos rfl]
  exact mem_cellMod _ _ _ _ (fun cell y hy => setAdd_subset cell _ y hy) i j x hc6

theorem forM_ok {α : Type} (l : List α) (f : α → Except String Unit)
    (h : ∀ a ∈ l, f a = .ok ()) : l.forM f = .ok () := by
  induction l with
  | nil => rfl
  | cons a as ih =>
    show (f a >>= fun _ => as.forM f) = .ok ()
    rw [h a (by simp)]
    show as.forM f = .ok ()
    exact ih (fun x hx => h x (by simp [hx]))

/-! ### The finite universe of Earley entries and closure termination -/


theorem mem_foldl_insertE {α : Type} [DecidableEq α] (l : List α) (acc : List α) (x : α) :
    x ∈ l.foldl insertE acc ↔ x ∈ acc ∨ x ∈ l := by
  induction l generalizing acc with
  | nil => simp
  | cons a as ih =>
    rw [List.foldl_cons, ih, mem_insertE_iff]
    constructor
    · rintro ((h | rfl) | h)
      · exact Or.inl h
      · exact Or.inr (by simp)
      · exact Or.inr (by simp [h])
    · rintro (h | h)
      · exact Or.inl (Or.inl h)
      · rcases List.mem_cons.mp h with rfl | h2
        · exact Or.inl (Or.inr rfl)
        · exact Or.inr h2

theorem mem_pyDedup {α : Type} [DecidableEq α] (l : List α) (x : α) :
    x ∈ pyDedup l ↔ x ∈ l := by
  unfold pyDedup
  rw [mem_foldl_insertE]
  simp

theorem insertE_nodup {α : Type} [DecidableEq α] (l : List α) (e : α) (h : l.Nodup) :
    (insertE l e).Nodup := by
  unfold insertE
  split
  · exact h
  · rename_i he
    simpa [List.nodup_append, h] using he

/-- Lists of length at most n over a finite set of elements. -/
def listsUpTo {α : Type} [DecidableEq α] : ℕ → Finset α → Finset (List α)
  | 0, _ => {[]}
  | n + 1, s => {[]} ∪ (s ×ˢ listsUpTo n s).image (fun p => p.1 :: p.2)

theorem mem_listsUpTo {α : Type} [DecidableEq α] :
    ∀ (n : ℕ) (s : Finset α) (l : List α),
    l ∈ listsUpTo n s ↔ l.length ≤ n ∧ ∀ a ∈ l, a ∈ s := by
  intro n
  induction n with
  | zero =>
    intro s l
    simp only [listsUpTo, Finset.mem_singleton]
    constructor
    · rintro rfl; simp
    · rintro ⟨h, _⟩
      exact List.eq_nil_of_length_eq_zero (Nat.le_zero.mp h)
  | succ n ih =>
    intro s l
    simp only [listsUpTo, Finset.mem_union, Finset.mem_singleton, Finset.mem_image]
    constructor
    · rintro (rfl | ⟨⟨a, t⟩, hp, rfl⟩)
      · simp
      · rw [Finset.mem_product] at hp
        obtain ⟨ht, hall⟩ := (ih s t).mp hp.2
        exact ⟨by simpa using Nat.succ_le_succ ht,
          by intro x hx; rcases List.mem_cons.mp hx with rfl | h2
             · exact hp.1
             · exact hall x h2⟩
    · rintro ⟨hlen, hall⟩
      cases l with
      | nil => exact Or.inl rfl
      | cons a t =>
        refine Or.inr ⟨(a, t), ?_, rfl⟩
        rw [Finset.mem_product]
        exact ⟨hall a (by simp),
          (ih s t).mpr ⟨by simpa using Nat.succ_le_succ_iff.mp (by simpa using hlen),
            fun x hx => hall x (by simp [hx])⟩⟩

theorem card_listsUpTo {α : Type} [DecidableEq α] :
    ∀ (n : ℕ) (s : Finset α), (listsUpTo n s).card ≤ (s.card + 1) ^ n := by
  intro n
  induction n with
  | zero => intro s; simp [listsUpTo]
  | succ n ih =>
    intro s
    calc (listsUpTo (n + 1) s).card
        ≤ ({[]} : Finset (List α)).card + ((s ×ˢ listsUpTo n s).image
            (fun p => p.1 :: p.2)).card := Finset.card_union_le _ _
      _ ≤ 1 + (s ×ˢ listsUpTo n s).card := by
          gcongr
          · simp
          · exact Finset.card_image_le
      _ = 1 + s.card * (listsUpTo n s).card := by rw [Finset.card_product]
      _ ≤ 1 + s.card * (s.card + 1) ^ n := by gcongr; exact ih s
      _ ≤ (s.card + 1) ^ (n + 1) := by
          have h1 : 1 ≤ (s.card + 1) ^ n := Nat.one_le_pow _ _ (by omega)
          calc 1 + s.card * (s.card + 1) ^ n
              ≤ (s.card + 1) ^ n + s.card * (s.card + 1) ^ n := by omega
            _ = (s.card + 1) ^ (n + 1) := by ring

theorem foldl_max_le_init (l : List ℕ) (a : ℕ) : a ≤ l.foldl max a := by
  induction l generalizing a with
  | nil => simp
  | cons b bs ih => exact le_trans (le_max_left a b) (ih (max a b))

theorem le_foldl_max (l : List ℕ) (a : ℕ) : ∀ x ∈ l, x ≤ l.foldl max a := by
  induction l generalizing a with
  | nil => intro x hx; cases hx
  | cons b bs ih =>
    intro x hx
    rcases List.mem_cons.mp hx with rfl | h2
    · exact le_trans (le_max_right a x) (foldl_max_le_init bs (max a x))
    · exact ih (max a b) x h2



/-- Well-formedness of a chart entry relative to a grammar and input: its
rule is a grammar rule or a scan-fabricated terminal rule, its span and
backpointer positions stay within the input, its dot stays within its
right side, and it carries at most dot backpointers over known symbols. -/
def entryWF (g : ContextFreeGrammar) (string : List String) (e : EarleyChartEntry) : Prop :=
  e.dotted_rule.rule ∈ earleyRules g string
  ∧ e.dotted_rule.span.1 ≤ string.length
  ∧ e.dotted_rule.span.2 ≤ string.length
  ∧ e.dotted_rule.dot ≤ e.dotted_rule.rule.right_side.length
  ∧ e.backpointers.length ≤ e.dotted_rule.dot
  ∧ ∀ bp ∈ e.backpointers, bp.1 ∈ bpSymbols g string ∧ bp.2 ≤ string.length

/-- The finite universe of well-formed chart entries. -/
def entryUniverse (g : ContextFreeGrammar) (string : List String) : Finset EarleyChartEntry :=
  ((((earleyRules g string).toFinset
      ×ˢ (Finset.range (string.length + 1) ×ˢ Finset.range (string.length + 1)))
      ×ˢ Finset.range (maxRhsLen g string + 1))
      ×ˢ listsUpTo (maxRhsLen g string)
          ((bpSymbols g string).toFinset ×ˢ Finset.range (string.length + 1))).image
    (fun q => ⟨⟨q.1.1.1, q.1.1.2, q.1.2⟩, q.2⟩)

theorem rhs_le_maxRhsLen (g : ContextFreeGrammar) (string : List String) (r : Rule)
    (hr : r ∈ earleyRules g string) : r.right_side.length ≤ maxRhsLen g string := by
  unfold maxRhsLen
  exact le_foldl_max _ 0 _ (List.mem_map_of_mem _ hr)

theorem mem_entryUniverse (g : ContextFreeGrammar) (string : List String)
    (e : EarleyChartEntry) (he : entryWF g string e) : e ∈ entryUniverse g string := by
  obtain ⟨h1, h2, h3, h4, h5, h6⟩ := he
  unfold entryUniverse
  rw [Finset.mem_image]
  refine ⟨⟨⟨⟨e.dotted_rule.rule, ⟨e.dotted_rule.span.1, e.dotted_rule.span.2⟩⟩,
    e.dotted_rule.dot⟩, e.backpointers⟩, ?_, rfl⟩
  simp only [Finset.mem_product, Finset.mem_range, List.mem_toFinset]
  refine ⟨⟨⟨h1, by omega, by omega⟩, ?_⟩, ?_⟩
  · have := rhs_le_maxRhsLen g string _ h1
    omega
  · rw [mem_listsUpTo]
    constructor
    · have := rhs_le_maxRhsLen g string _ h1
      omega
    · intro bp hbp
      simp only [Finset.mem_product, List.mem_toFinset, Finset.mem_range]
      obtain ⟨hb1, hb2⟩ := h6 bp hbp
      exact ⟨hb1, by omega⟩

theorem card_entryUniverse (g : ContextFreeGrammar) (string : List String) :
    (entryUniverse g string).card + 1 ≤ earleyFuel g string := by
  have hf : earleyFuel g string
      = (earleyRules g string).length * (string.length + 1) * (string.length + 1)
        * (maxRhsLen g string + 1)
        * ((bpSymbols g string).length * (string.length + 1) + 1) ^ maxRhsLen g string
        + 1 := rfl
  have h1 : ((((earleyRules g string).toFinset
      ×ˢ (Finset.range (string.length + 1) ×ˢ Finset.range (string.length + 1)))
      ×ˢ Finset.range (maxRhsLen g string + 1))
      ×ˢ listsUpTo (maxRhsLen g string)
          ((bpSymbols g string).toFinset ×ˢ Finset.range (string.length + 1))).card
      ≤ (earleyRules g string).length * (string.length + 1) * (string.length + 1)
        * (maxRhsLen g string + 1)
        * ((bpSymbols g string).length * (string.length + 1) + 1) ^ maxRhsLen g string := by
    have hl : (listsUpTo (maxRhsLen g string)
        ((bpSymbols g string).toFinset ×ˢ Finset.range (string.length + 1))).card
        ≤ ((bpSymbols g string).length * (string.length + 1) + 1) ^ maxRhsLen g string := by
      refine le_trans (card_listsUpTo _ _) ?_
      gcongr
      rw [Finset.card_product, Finset.card_range]
      exact Nat.mul_le_mul_right _ (List.toFinset_card_le _)
    calc ((((earleyRules g string).toFinset
        ×ˢ (Finset.range (string.length + 1) ×ˢ Finset.range (string.length + 1)))
        ×ˢ Finset.range (maxRhsLen g string + 1))
        ×ˢ listsUpTo (maxRhsLen g string)
            ((bpSymbols g string).toFinset ×ˢ Finset.range (string.length + 1))).card
        = (earleyRules g string).toFinset.card * ((string.length + 1) * (string.length + 1))
          * (maxRhsLen g string + 1)
          * (listsUpTo (maxRhsLen g string)
              ((bpSymbols g string).toFinset ×ˢ Finset.range (string.length + 1))).card := by
          simp [Finset.card_product, Finset.card_range, Nat.mul_assoc]
      _ ≤ (earleyRules g string).length * ((string.length + 1) * (string.length + 1))
          * (maxRhsLen g string + 1)
          * (((bpSymbols g string).length * (string.length + 1) + 1) ^ maxRhsLen g string) := by
          gcongr
          exact List.toFinset_card_le _
      _ = (earleyRules g string).length * (string.length + 1) * (string.length + 1)
          * (maxRhsLen g string + 1)
          * ((bpSymbols g string).length * (string.length + 1) + 1) ^ maxRhsLen g string := by
          ring
  have h2 : (entryUniverse g string).card
      ≤ ((((earleyRules g string).toFinset
          ×ˢ (Finset.range (string.length + 1) ×ˢ Finset.range (string.length + 1)))
          ×ˢ Finset.range (maxRhsLen g string + 1))
          ×ˢ listsUpTo (maxRhsLen g string)
              ((bpSymbols g string).toFinset ×ˢ Finset.range (string.length + 1))).card :=
    Finset.card_image_le
  omega



theorem foldl_preserve_mem {α β : Type} (P : β → Prop) (f : β → α → β) :
    ∀ (l : List α) (b : β), P b → (∀ b a, a ∈ l → P b → P (f b a)) → P (l.foldl f b) := by
  intro l
  induction l with
  | nil => intro b hb _; exact hb
  | cons a as ih =>
    intro b hb hf
    exact ih (f b a) (hf b a (by simp) hb)
      (fun b2 a2 ha2 hb2 => hf b2 a2 (by simp [ha2]) hb2)

/-- Chart well-formedness: every position holds a duplicate-free set of
well-formed entries. -/
def chartWF (g : ContextFreeGrammar) (string : List String) (ch : EarleyChart) : Prop :=
  ∀ j, (ch.getD j []).Nodup ∧ ∀ e ∈ ch.getD j [], entryWF g string e

theorem getD_chartAdd (ch : EarleyChart) (pos : ℕ) (e : EarleyChartEntry) (j : ℕ) :
    (chartAdd ch pos e).getD j [] = ch.getD j []
    ∨ (chartAdd ch pos e).getD j [] = insertE (ch.getD j []) e := by
  unfold chartAdd
  by_cases hp : pos < ch.length
  · by_cases hj : pos = j
    · subst hj
      rw [getD_set_self _ _ _ _ hp]
      exact Or.inr rfl
    · rw [getD_set_ne _ _ _ _ _ hj]
      exact Or.inl rfl
  · rw [List.set_eq_of_length_le (le_of_not_lt hp)]
    exact Or.inl rfl

theorem chartAdd_WF (g : ContextFreeGrammar) (string : List String) (ch : EarleyChart)
    (pos : ℕ) (e : EarleyChartEntry) (hch : chartWF g string ch)
    (he : entryWF g string e) : chartWF g string (chartAdd ch pos e) := by
  intro j
  rcases getD_chartAdd ch pos e j with hj | hj <;> rw [hj]
  · exact hch j
  · refine ⟨insertE_nodup _ _ (hch j).1, ?_⟩
    intro x hx
    rcases (mem_insertE_iff _ _ _).mp hx with h2 | rfl
    · exact (hch j).2 x h2
    · exact he

theorem next_symbol_mem_bpSymbols (g : ContextFreeGrammar) (string : List String)
    (d : DottedRule) (hrule : d.rule ∈ earleyRules g string)
    (hlt : d.dot < d.rule.right_side.length) :
    d.next_symbol ∈ bpSymbols g string := by
  unfold bpSymbols
  rw [mem_pyDedup]
  refine List.mem_flatMap.mpr ⟨d.rule, hrule, ?_⟩
  unfold DottedRule.next_symbol
  rw [List.getD_eq_getElem _ _ hlt]
  exact List.mem_cons_of_mem _ (List.getElem_mem _)

theorem is_complete_false_lt (e : EarleyChartEntry)
    (h4 : e.dotted_rule.dot ≤ e.dotted_rule.rule.right_side.length)
    (hinc : e.is_complete = false) :
    e.dotted_rule.dot < e.dotted_rule.rule.right_side.length := by
  unfold EarleyChartEntry.is_complete DottedRule.is_complete at hinc
  rw [beq_eq_false_iff_ne] at hinc
  omega

theorem complete_entryWF (g : ContextFreeGrammar) (string : List String)
    (e comp : EarleyChartEntry) (edge : ℕ) (he : entryWF g string e)
    (hinc : e.is_complete = false) (hedge : edge ≤ string.length) :
    entryWF g string (e.complete comp edge) := by
  obtain ⟨h1, h2, h3, h4, h5, h6⟩ := he
  have hlt := is_complete_false_lt e h4 hinc
  refine ⟨h1, h2, hedge, by simpa [EarleyChartEntry.complete, DottedRule.complete] using hlt,
    by simp [EarleyChartEntry.complete, DottedRule.complete]; omega, ?_⟩
  intro bp hbp
  simp only [EarleyChartEntry.complete] at hbp
  rcases List.mem_append.mp hbp with h7 | h7
  · exact h6 bp h7
  · rcases List.mem_singleton.mp h7 with rfl
    exact ⟨next_symbol_mem_bpSymbols g string e.dotted_rule h1 hlt, h3⟩



theorem predict_WF (g : ContextFreeGrammar) (string : List String) (ch : EarleyChart)
    (e : EarleyChartEntry) (position : ℕ) (hch : chartWF g string ch)
    (hpos : position ≤ string.length) :
    chartWF g string (EarleyParser.predict g ch e position) := by
  unfold EarleyParser.predict
  refine foldl_preserve_mem (chartWF g string) _ _ _ hch ?_
  intro c rule hrule hc
  refine chartAdd_WF g string c position _ hc ?_
  have hr : rule ∈ g.rulesList := (List.mem_filter.mp hrule).1
  exact ⟨List.mem_append_left _ hr, by simpa using hpos, by simpa using hpos,
    by simp, by simp, by simp⟩

theorem scan_WF (g : ContextFreeGrammar) (string : List String) (ch : EarleyChart)
    (e : EarleyChartEntry) (position : ℕ) (hch : chartWF g string ch)
    (he : entryWF g string e) (hinc : e.is_complete = false)
    (hpos : position < string.length) :
    chartWF g string (EarleyParser.scan string ch e position) := by
  simp only [EarleyParser.scan]
  split
  · rename_i hword
    rw [beq_iff_eq] at hword
    have hwmem : string.getD position "" ∈ string := by
      rw [List.getD_eq_getElem _ _ hpos]
      exact List.getElem_mem _
    have hrule : (⟨e.next_symbol, [string.getD position ""]⟩ : Rule)
        ∈ earleyRules g string := by
      refine List.mem_append_right _ ?_
      refine List.mem_map.mpr ⟨string.getD position "", ?_, ?_⟩
      · rw [mem_pyDedup]
        exact hwmem
      · rw [← hword]
    have hterm : entryWF g string
        ⟨⟨⟨e.next_symbol, [string.getD position ""]⟩, (position, position + 1), 1⟩, []⟩ := by
      refine ⟨hrule, ?_, ?_, ?_, ?_, ?_⟩
      · show position ≤ string.length
        omega
      · show position + 1 ≤ string.length
        omega
      · show 1 ≤ [string.getD position ""].length
        simp
      · show ([] : List (String × ℕ)).length ≤ 1
        simp
      · intro bp hbp
        cases hbp
    refine chartAdd_WF g string _ _ _ (chartAdd_WF g string ch _ _ hch hterm) ?_
    exact complete_entryWF g string e _ _ he hinc (by omega)
  · exact hch

theorem completeOp_WF (g : ContextFreeGrammar) (string : List String) (ch : EarleyChart)
    (e : EarleyChartEntry) (position : ℕ) (hch : chartWF g string ch)
    (he : entryWF g string e) :
    chartWF g string (EarleyParser.complete ch e position) := by
  unfold EarleyParser.complete
  refine foldl_preserve_mem (chartWF g string) _ _ _ hch ?_
  intro c prev hprev hc
  have hmem := List.mem_filter.mp hprev
  have hcond := hmem.2
  rw [Bool.and_eq_true] at hcond
  have hinc : prev.is_complete = false := by
    have h := of_decide_eq_true hcond.1
    cases hb : prev.is_complete
    · rfl
    · exact absurd hb h
  refine chartAdd_WF g string c position _ hc ?_
  exact complete_entryWF g string prev e e.span.2 ((hch _).2 prev hmem.1) hinc he.2.2.1

theorem processEntry_WF (g : ContextFreeGrammar) (string : List String) (position : ℕ)
    (ch : EarleyChart) (e : EarleyChartEntry) (hch : chartWF g string ch)
    (he : entryWF g string e) (hpos : position ≤ string.length) :
    chartWF g string (EarleyParser.processEntry g string position ch e) := by
  unfold EarleyParser.processEntry
  split
  · rename_i hinc
    rw [Bool.not_eq_true] at hinc
    split
    · exact predict_WF g string ch e position hch hpos
    · split
      · rename_i hlt
        exact scan_WF g string ch e position hch he hinc hlt
      · exact hch
  · exact completeOp_WF g string ch e position hch he

theorem stepAt_WF (g : ContextFreeGrammar) (string : List String) (position : ℕ)
    (ch : EarleyChart) (hch : chartWF g string ch) (hpos : position ≤ string.length) :
    chartWF g string (EarleyParser.stepAt g string position ch) := by
  unfold EarleyParser.stepAt
  refine foldl_preserve_mem (chartWF g string) _ _ _ hch ?_
  intro c a ha hc
  exact processEntry_WF g string position c a hc ((hch position).2 a ha) hpos



theorem getD_chartAdd_append (ch : EarleyChart) (pos : ℕ) (e : EarleyChartEntry) (j : ℕ) :
    ∃ t, (chartAdd ch pos e).getD j [] = ch.getD j [] ++ t := by
  rcases getD_chartAdd ch pos e j with h | h
  · exact ⟨[], by rw [h, List.append_nil]⟩
  · rw [h]
    unfold insertE
    split
    · exact ⟨[], by simp⟩
    · exact ⟨[e], rfl⟩

theorem foldl_chartAdd_append {α : Type} (step : EarleyChart → α → EarleyChart)
    (hstep : ∀ c a, ∃ pos e, step c a = chartAdd c pos e) (l : List α)
    (ch : EarleyChart) (j : ℕ) :
    ∃ t, (l.foldl step ch).getD j [] = ch.getD j [] ++ t := by
  refine foldl_preserve (fun c : EarleyChart => ∃ t, c.getD j [] = ch.getD j [] ++ t)
    _ _ _ ⟨[], by simp⟩ ?_
  rintro c a ⟨t, ht⟩
  obtain ⟨pos, e, he⟩ := hstep c a
  obtain ⟨t2, ht2⟩ := getD_chartAdd_append c pos e j
  exact ⟨t ++ t2, by rw [he, ht2, ht, List.append_assoc]⟩

theorem processEntry_append (g : ContextFreeGrammar) (string : List String) (position : ℕ)
    (ch : EarleyChart) (e : EarleyChartEntry) (j : ℕ) :
    ∃ t, (EarleyParser.processEntry g string position ch e).getD j []
      = ch.getD j [] ++ t := by
  unfold EarleyParser.processEntry
  split
  · split
    · exact foldl_chartAdd_append _ (fun c a => ⟨position, _, rfl⟩) _ ch j
    · split
      · simp only [EarleyParser.scan]
        split
        · obtain ⟨t1, ht1⟩ := getD_chartAdd_append ch (position + 1)
            ⟨⟨⟨e.next_symbol, [string.getD position ""]⟩, (position, position + 1), 1⟩, []⟩ j
          obtain ⟨t2, ht2⟩ := getD_chartAdd_append
            (chartAdd ch (position + 1)
              ⟨⟨⟨e.next_symbol, [string.getD position ""]⟩, (position, position + 1), 1⟩, []⟩)
            (position + 1) (e.complete ⟨⟨⟨e.next_symbol, [string.getD position ""]⟩,
              (position, position + 1), 1⟩, []⟩ (position + 1)) j
          exact ⟨t1 ++ t2, by rw [ht2, ht1, List.append_assoc]⟩
        · exact ⟨[], by simp⟩
      · exact ⟨[], by simp⟩
  · unfold EarleyParser.complete
    exact foldl_chartAdd_append _ (fun c a => ⟨position, _, rfl⟩) _ ch j

theorem stepAt_append (g : ContextFreeGrammar) (string : List String) (position : ℕ)
    (ch : EarleyChart) (j : ℕ) :
    ∃ t, (EarleyParser.stepAt g string position ch).getD j [] = ch.getD j [] ++ t := by
  unfold EarleyParser.stepAt
  refine foldl_preserve (fun c : EarleyChart => ∃ t, c.getD j [] = ch.getD j [] ++ t)
    _ _ _ ⟨[], by simp⟩ ?_
  rintro c a ⟨t, ht⟩
  obtain ⟨t2, ht2⟩ := processEntry_append g string position c a j
  exact ⟨t ++ t2, by rw [ht2, ht, List.append_assoc]⟩

theorem closeAt_WF (g : ContextFreeGrammar) (string : List String) (position : ℕ)
    (hpos : position ≤ string.length) :
    ∀ (fuel : ℕ) (ch : EarleyChart), chartWF g string ch →
    chartWF g string ((EarleyParser.closeAt g string position fuel ch).1) := by
  intro fuel
  induction fuel with
  | zero => intro ch hch; exact hch
  | succ f ih =>
    intro ch hch
    simp only [EarleyParser.closeAt]
    split
    · exact stepAt_WF g string position ch hch hpos
    · exact ih _ (stepAt_WF g string position ch hch hpos)

theorem length_le_card (g : ContextFreeGrammar) (string : List String)
    (l : List EarleyChartEntry) (hn : l.Nodup) (hsub : ∀ e ∈ l, entryWF g string e) :
    l.length ≤ (entryUniverse g string).card := by
  have h1 : l.toFinset.card = l.length := List.toFinset_card_of_nodup hn
  have h2 : l.toFinset ⊆ entryUniverse g string := by
    intro e hmem
    exact mem_entryUniverse g string e (hsub e (List.mem_toFinset.mp hmem))
  have := Finset.card_le_card h2
  omega

theorem closeAt_true (g : ContextFreeGrammar) (string : List String) (position : ℕ)
    (hpos : position ≤ string.length) :
    ∀ (fuel : ℕ) (ch : EarleyChart), chartWF g string ch →
    (entryUniverse g string).card + 1 ≤ fuel + (ch.getD position []).length →
    (EarleyParser.closeAt g string position fuel ch).2 = true := by
  intro fuel
  induction fuel with
  | zero =>
    intro ch hch hcard
    exfalso
    have := length_le_card g string (ch.getD position []) (hch position).1
      (hch position).2
    omega
  | succ f ih =>
    intro ch hch hcard
    simp only [EarleyParser.closeAt]
    split
    · rfl
    · rename_i hne
      refine ih (EarleyParser.stepAt g string position ch)
        (stepAt_WF g string position ch hch hpos) ?_
      obtain ⟨t, ht⟩ := stepAt_append g string position ch position
      have htne : t ≠ [] := by
        intro h0
        apply hne
        rw [ht, h0, List.append_nil]
      have hgrow : (ch.getD position []).length + 1
          ≤ ((EarleyParser.stepAt g string position ch).getD position []).length := by
        rw [ht, List.length_append]
        have : 1 ≤ t.length := by
          cases t with
          | nil => exact absurd rfl htne
          | cons a as => simp
        omega
      omega

theorem getD_replicate_nil {α : Type} (m j : ℕ) :
    (List.replicate m ([] : List α)).getD j [] = [] := by
  simp only [List.getD, List.get?_eq_getElem?, List.getElem?_replicate]
  split <;> simp

theorem init_WF (g : ContextFreeGrammar) (string : List String) :
    chartWF g string (EarleyParser.init_chart g string) := by
  unfold EarleyParser.init_chart
  refine foldl_preserve_mem (chartWF g string) _ _ _ ?_ ?_
  · intro j
    rw [getD_replicate_nil]
    exact ⟨List.nodup_nil, by simp⟩
  · intro b rule hrule hb
    refine chartAdd_WF g string b 0 _ hb ?_
    refine ⟨List.mem_append_left _ (List.mem_filter.mp hrule).1, ?_, ?_, ?_, ?_, ?_⟩
    · exact Nat.zero_le _
    · exact Nat.zero_le _
    · exact Nat.zero_le _
    · exact Nat.le_refl _
    · intro bp hbp
      cases hbp

/-- Every closure loop run by fill_chart reaches its fixed point: the
converged flag is true for every grammar and every input. -/
theorem fill_chart_converged (g : ContextFreeGrammar) (string : List String) :
    (EarleyParser.fill_chart g string).2 = true := by
  unfold EarleyParser.fill_chart
  refine (foldl_preserve_mem
    (fun acc : EarleyChart × Bool => chartWF g string acc.1 ∧ acc.2 = true) _ _ _
    ⟨init_WF g string, rfl⟩ ?_).2
  rintro acc i hi ⟨hwf, hb⟩
  have hpos : i ≤ string.length := by
    have := List.mem_range.mp hi
    omega
  refine ⟨closeAt_WF g string i hpos _ _ hwf, ?_⟩
  show (acc.2 && (EarleyParser.closeAt g string i (earleyFuel g string) acc.1).2) = true
  rw [hb, Bool.true_and]
  refine closeAt_true g string i hpos (earleyFuel g string) acc.1 hwf ?_
  have := card_entryUniverse g string
  omega


/-- Characterization of the Earley recognize method: true iff the final
chart cell (index = input length) holds a complete start-variable entry
spanning the whole input. -/
theorem recognize_spec (g : ContextFreeGrammar) (string : List String) :
    EarleyParser.recognize g string = true
      ↔ ∃ e ∈ ((EarleyParser.fill_chart g string).1).getD string.length [],
          e.dotted_rule.left_side = g.start_variable
          ∧ e.dotted_rule.span = (0, string.length)
          ∧ e.dotted_rule.is_complete = true := by
  unfold EarleyParser.recognize
  simp only []
  rw [getLastD_eq_getD, fill_chart_length]
  simp only [Nat.add_sub_cancel, List.any_eq_true, Bool.and_eq_true, beq_iff_eq,
    decide_eq_true_eq]
  constructor
  · rintro ⟨e, he, ⟨h1, h2⟩, h3⟩
    exact ⟨e, he, h1, h2, h3⟩
  · rintro ⟨e, he, h1, h2, h3⟩
    exact ⟨e, he, ⟨h1, h2⟩, h3⟩

/-! ### Empty-input behaviour (C9 support) -/


/-- A symbol derives the empty string transitively from the grammar rules:
some rule rewrites it into symbols that all derive the empty string. -/
inductive Nullable (g : ContextFreeGrammar) : String → Prop where
  | step (r : Rule) : r ∈ g.rulesList → (∀ b ∈ r.right_side, Nullable g b) →
      Nullable g r.left_side

theorem list_len1_ext {α : Type} (a b : List α) (d : α) (ha : a.length = 1)
    (hb : b.length = 1) (h : a.getD 0 d = b.getD 0 d) : a = b := by
  match a, b with
  | [x], [y] =>
    simp only [List.getD] at h
    cases h
    rfl

theorem closeAt_fixpoint_one (g : ContextFreeGrammar) (string : List String) :
    ∀ (fuel : ℕ) (ch : EarleyChart), ch.length = 1 →
    (EarleyParser.closeAt g string 0 fuel ch).2 = true →
    EarleyParser.stepAt g string 0 ((EarleyParser.closeAt g string 0 fuel ch).1)
      = (EarleyParser.closeAt g string 0 fuel ch).1 := by
  intro fuel
  induction fuel with
  | zero => intro ch hlen h; cases h
  | succ f ih =>
    intro ch hlen hflag
    simp only [EarleyParser.closeAt] at hflag ⊢
    by_cases hc : (EarleyParser.stepAt g string 0 ch).getD 0 [] = ch.getD 0 []
    · rw [if_pos hc] at hflag ⊢
      have hch : EarleyParser.stepAt g string 0 ch = ch :=
        list_len1_ext _ _ [] ((stepAt_length g string 0 ch).trans hlen) hlen hc
      rw [hch]
      exact hch
    · rw [if_neg hc] at hflag ⊢
      exact ih (EarleyParser.stepAt g string 0 ch)
        ((stepAt_length g string 0 ch).trans hlen) hflag

theorem fill_chart_nil (g : ContextFreeGrammar) :
    EarleyParser.fill_chart g []
      = ((EarleyParser.closeAt g [] 0 (earleyFuel g []) (EarleyParser.init_chart g [])).1,
         true && (EarleyParser.closeAt g [] 0 (earleyFuel g [])
           (EarleyParser.init_chart g [])).2) := rfl

theorem fill_chart_nil_fixpoint (g : ContextFreeGrammar) :
    EarleyParser.stepAt g [] 0 ((EarleyParser.fill_chart g []).1)
      = (EarleyParser.fill_chart g []).1 := by
  have hflag := fill_chart_converged g []
  rw [fill_chart_nil]
  exact closeAt_fixpoint_one g [] (earleyFuel g []) (EarleyParser.init_chart g [])
    (init_chart_length g []) (by
      have h2 := hflag
      rw [fill_chart_nil] at h2
      simpa using h2)

theorem mem_chartAdd_self (ch : EarleyChart) (pos : ℕ) (e : EarleyChartEntry)
    (h : pos < ch.length) : e ∈ (chartAdd ch pos e).getD pos [] := by
  unfold chartAdd
  rw [getD_set_self _ _ _ _ h]
  exact mem_insertE _ _

theorem foldl_adds {α : Type} (f : EarleyChart → α → EarleyChart)
    (Q : EarleyChart → Prop) (hQ : ∀ c b, Q c → Q (f c b))
    (hmono : ∀ (c : EarleyChart) (b : α) (y : EarleyChartEntry) (j2 : ℕ),
      y ∈ c.getD j2 [] → y ∈ (f c b).getD j2 [])
    (target : EarleyChartEntry) (j : ℕ) (a : α)
    (hadds : ∀ c : EarleyChart, Q c → target ∈ (f c a).getD j []) :
    ∀ (l : List α), a ∈ l → ∀ c : EarleyChart, Q c →
      target ∈ (l.foldl f c).getD j [] := by
  intro l
  induction l with
  | nil => intro ha; cases ha
  | cons b bs ih =>
    intro ha c hc
    rcases List.mem_cons.mp ha with rfl | hmem
    · show target ∈ (bs.foldl f (f c a)).getD j []
      refine foldl_preserve (fun d : EarleyChart => target ∈ d.getD j []) _ _ _
        (hadds c hc) ?_
      intro d b2 hd
      exact hmono d b2 target j hd
    · exact ih hmem (f c b) (hQ c b hc)

theorem stepAt_closed_predict (g : ContextFreeGrammar) (string : List String) (pos : ℕ)
    (ch : EarleyChart) (hfix : EarleyParser.stepAt g string pos ch = ch)
    (hpos : pos < ch.length) (e : EarleyChartEntry) (he : e ∈ ch.getD pos [])
    (hinc : e.is_complete = false) (hvar : g.vars.contains e.next_symbol = true)
    (rule : Rule) (hrule : rule ∈ g.rules e.next_symbol) :
    (⟨⟨rule, (pos, pos), 0⟩, []⟩ : EarleyChartEntry) ∈ ch.getD pos [] := by
  rw [← hfix]
  unfold EarleyParser.stepAt
  refine foldl_adds (EarleyParser.processEntry g string pos)
    (fun c => c.length = ch.length)
    (fun c b hc => (processEntry_length g string pos c b).trans hc)
    (fun c b y j2 hy => mem_processEntry g string pos c b j2 y hy)
    _ pos e ?_ (ch.getD pos []) he ch rfl
  intro c hc
  unfold EarleyParser.processEntry
  rw [if_pos (by simp [hinc]), if_pos hvar]
  unfold EarleyParser.predict
  refine foldl_adds (fun c2 (r : Rule) => chartAdd c2 pos ⟨⟨r, (pos, pos), 0⟩, []⟩)
    (fun c2 => c2.length = ch.length)
    (fun c2 b hc2 => (chartAdd_length _ _ _).trans hc2)
    (fun c2 b y j2 hy => mem_chartAdd c2 pos _ j2 y hy)
    _ pos rule ?_ (g.rules e.next_symbol) hrule c hc
  intro c2 hc2
  exact mem_chartAdd_self c2 pos _ (hc2 ▸ hpos)

theorem stepAt_closed_complete (g : ContextFreeGrammar) (string : List String) (pos : ℕ)
    (ch : EarleyChart) (hfix : EarleyParser.stepAt g string pos ch = ch)
    (hpos : pos < ch.length) (e : EarleyChartEntry) (he : e ∈ ch.getD pos [])
    (hcomp : e.is_complete = true) (prev : EarleyChartEntry)
    (hprev : prev ∈ ch.getD e.span.1 []) (hpinc : prev.is_complete = false)
    (hwait : e.is_completion_of prev = true) :
    prev.complete e e.span.2 ∈ ch.getD pos [] := by
  rw [← hfix]
  unfold EarleyParser.stepAt
  refine foldl_adds (EarleyParser.processEntry g string pos)
    (fun c => c.length = ch.length ∧ ∀ j2 y, y ∈ ch.getD j2 [] → y ∈ c.getD j2 [])
    (fun c b hc => ⟨(processEntry_length g string pos c b).trans hc.1,
      fun j2 y hy => mem_processEntry g string pos c b j2 y (hc.2 j2 y hy)⟩)
    (fun c b y j2 hy => mem_processEntry g string pos c b j2 y hy)
    _ pos e ?_ (ch.getD pos []) he ch ⟨rfl, fun j2 y hy => hy⟩
  rintro c ⟨hclen, hcext⟩
  unfold EarleyParser.processEntry
  rw [if_neg (by simp [hcomp])]
  unfold EarleyParser.complete
  refine foldl_adds (fun c2 prev2 => chartAdd c2 pos (prev2.complete e e.span.2))
    (fun c2 => c2.length = ch.length)
    (fun c2 b hc2 => (chartAdd_length _ _ _).trans hc2)
    (fun c2 b y j2 hy => mem_chartAdd c2 pos _ j2 y hy)
    _ pos prev ?_ ((c.getD e.span.1 []).filter
      (fun p => ¬ p.is_complete && e.is_completion_of p)) ?_ c hclen
  · intro c2 hc2
    exact mem_chartAdd_self c2 pos _ (hc2 ▸ hpos)
  · refine List.mem_filter.mpr ⟨hcext e.span.1 prev hprev, ?_⟩
    simp [hpinc, hwait]

/-- Soundness invariant for empty-input charts: the dotted rule is a
grammar rule and every symbol before the dot derives the empty string. -/
def nullWF (g : ContextFreeGrammar) (e : EarleyChartEntry) : Prop :=
  e.dotted_rule.rule ∈ g.rulesList
  ∧ ∀ b ∈ e.dotted_rule.rule.right_side.take e.dotted_rule.dot, Nullable g b

def chartNull (g : ContextFreeGrammar) (ch : EarleyChart) : Prop :=
  ∀ j, ∀ e ∈ ch.getD j [], nullWF g e

theorem chartAdd_null (g : ContextFreeGrammar) (ch : EarleyChart) (pos : ℕ)
    (e : EarleyChartEntry) (hch : chartNull g ch) (he : nullWF g e) :
    chartNull g (chartAdd ch pos e) := by
  intro j x hx
  rcases getD_chartAdd ch pos e j with h | h
  · rw [h] at hx
    exact hch j x hx
  · rw [h] at hx
    rcases (mem_insertE_iff _ _ _).mp hx with hx | rfl
    · exact hch j x hx
    · exact he

theorem nullable_of_complete (g : ContextFreeGrammar) (e : EarleyChartEntry)
    (he : nullWF g e) (hc : e.is_complete = true) :
    Nullable g e.dotted_rule.left_side := by
  have hd : e.dotted_rule.dot = e.dotted_rule.rule.right_side.length := by
    unfold EarleyChartEntry.is_complete DottedRule.is_complete at hc
    exact eq_of_beq hc
  refine Nullable.step e.dotted_rule.rule he.1 ?_
  intro b hb
  refine he.2 b ?_
  rw [hd, List.take_length]
  exact hb

theorem complete_null (g : ContextFreeGrammar) (prev e : EarleyChartEntry) (edge : ℕ)
    (hprev : nullWF g prev)
    (hlt : prev.dotted_rule.dot < prev.dotted_rule.rule.right_side.length)
    (hnext : Nullable g prev.next_symbol) :
    nullWF g (prev.complete e edge) := by
  refine ⟨hprev.1, ?_⟩
  intro b hb
  have hb2 : b ∈ prev.dotted_rule.rule.right_side.take (prev.dotted_rule.dot + 1) := hb
  rw [List.take_succ] at hb2
  rcases List.mem_append.mp hb2 with hb3 | hb3
  · exact hprev.2 b hb3
  · rw [List.getElem?_eq_getElem hlt] at hb3
    simp only [Option.toList_some, List.mem_singleton] at hb3
    subst hb3
    have h2 : prev.next_symbol
        = prev.dotted_rule.rule.right_side[prev.dotted_rule.dot] := by
      unfold EarleyChartEntry.next_symbol DottedRule.next_symbol
      exact List.getD_eq_getElem _ _ hlt
    rw [← h2]
    exact hnext

theorem processEntry_null (g : ContextFreeGrammar) (ch : EarleyChart)
    (e : EarleyChartEntry) (hwf : chartWF g [] ch) (hch : chartNull g ch)
    (he : nullWF g e) :
    chartNull g (EarleyParser.processEntry g [] 0 ch e) := by
  unfold EarleyParser.processEntry
  split
  · split
    · unfold EarleyParser.predict
      refine foldl_preserve_mem (chartNull g) _ _ _ hch ?_
      intro c rule hrule hc
      refine chartAdd_null g c 0 _ hc ?_
      exact ⟨(List.mem_filter.mp hrule).1, fun b hb => by simp at hb⟩
    · split
      · rename_i hlt
        exact absurd hlt (by simp)
      · exact hch
  · rename_i hcomp
    have hcomp2 : e.is_complete = true := not_not.mp hcomp
    unfold EarleyParser.complete
    refine foldl_preserve_mem (chartNull g) _ _ _ hch ?_
    intro c prev hprev hc
    refine chartAdd_null g c 0 _ hc ?_
    have hmem := List.mem_filter.mp hprev
    have hpn : nullWF g prev := hch e.span.1 prev hmem.1
    have h12 := hmem.2
    rw [Bool.and_eq_true] at h12
    have hpinc : prev.is_complete = false :=
      Bool.eq_false_iff.mpr (of_decide_eq_true h12.1)
    have hwait : e.is_completion_of prev = true := h12.2
    have hplt : prev.dotted_rule.dot < prev.dotted_rule.rule.right_side.length :=
      is_complete_false_lt prev ((hwf e.span.1).2 prev hmem.1).2.2.2.1 hpinc
    refine complete_null g prev e e.span.2 hpn hplt ?_
    have hleq : e.dotted_rule.left_side = prev.next_symbol := by
      unfold EarleyChartEntry.is_completion_of at hwait
      exact eq_of_beq hwait
    rw [← hleq]
    exact nullable_of_complete g e he hcomp2

theorem stepAt_null (g : ContextFreeGrammar) (ch : EarleyChart)
    (hwf : chartWF g [] ch) (hch : chartNull g ch) :
    chartNull g (EarleyParser.stepAt g [] 0 ch) := by
  unfold EarleyParser.stepAt
  have h := foldl_preserve_mem (fun c => chartWF g [] c ∧ chartNull g c)
    (EarleyParser.processEntry g [] 0) (ch.getD 0 []) ch ⟨hwf, hch⟩ ?_
  · exact h.2
  · intro c a ha hc
    exact ⟨processEntry_WF g [] 0 c a hc.1 ((hwf 0).2 a ha) (Nat.le_refl 0),
      processEntry_null g c a hc.1 hc.2 (hch 0 a ha)⟩

theorem closeAt_null (g : ContextFreeGrammar) :
    ∀ (fuel : ℕ) (ch : EarleyChart), chartWF g [] ch → chartNull g ch →
    chartNull g ((EarleyParser.closeAt g [] 0 fuel ch).1) := by
  intro fuel
  induction fuel with
  | zero => intro ch _ hch; exact hch
  | succ f ih =>
    intro ch hwf hch
    simp only [EarleyParser.closeAt]
    split
    · exact stepAt_null g ch hwf hch
    · exact ih (EarleyParser.stepAt g [] 0 ch)
        (stepAt_WF g [] 0 ch hwf (Nat.le_refl 0)) (stepAt_null g ch hwf hch)

theorem init_null (g : ContextFreeGrammar) :
    chartNull g (EarleyParser.init_chart g []) := by
  unfold EarleyParser.init_chart
  refine foldl_preserve_mem (chartNull g) _ _ _ ?_ ?_
  · intro j e hejmem
    rw [getD_replicate_nil] at hejmem
    cases hejmem
  · intro c rule hrule hc
    exact chartAdd_null g c 0 _ hc
      ⟨(List.mem_filter.mp hrule).1, fun b hb => by simp at hb⟩

theorem fill_chart_nil_WF (g : ContextFreeGrammar) :
    chartWF g [] ((EarleyParser.fill_chart g []).1) := by
  rw [fill_chart_nil]
  exact closeAt_WF g [] 0 (Nat.le_refl 0) (earleyFuel g [])
    (EarleyParser.init_chart g []) (init_WF g [])

theorem fill_chart_nil_null (g : ContextFreeGrammar) :
    chartNull g ((EarleyParser.fill_chart g []).1) := by
  rw [fill_chart_nil]
  exact closeAt_null g (earleyFuel g []) (EarleyParser.init_chart g [])
    (init_WF g []) (init_null g)

theorem recognize_nil_sound (g : ContextFreeGrammar)
    (h : EarleyParser.recognize g [] = true) : Nullable g g.start_variable := by
  obtain ⟨e, he, h1, h2, h3⟩ := (recognize_spec g []).mp h
  have hnull := fill_chart_nil_null g 0 e he
  rw [← h1]
  exact nullable_of_complete g e hnull h3

theorem mem_init_chart (g : ContextFreeGrammar) (string : List String) (rule : Rule)
    (hrule : rule ∈ g.rules g.start_variable) :
    (⟨⟨rule, (0, 0), 0⟩, []⟩ : EarleyChartEntry)
      ∈ (EarleyParser.init_chart g string).getD 0 [] := by
  unfold EarleyParser.init_chart
  refine foldl_adds (fun ch r => chartAdd ch 0 ⟨⟨r, (0, 0), 0⟩, []⟩)
    (fun c => c.length = string.length + 1)
    (fun c b hc => (chartAdd_length _ _ _).trans hc)
    (fun c b y j2 hy => mem_chartAdd c 0 _ j2 y hy)
    _ 0 rule ?_ (g.rules g.start_variable) hrule _ (List.length_replicate _ _)
  intro c hc
  exact mem_chartAdd_self c 0 _ (by omega)

theorem earley_nil_walk (g : ContextFreeGrammar) (ch : EarleyChart)
    (hfix : EarleyParser.stepAt g [] 0 ch = ch) (hlen : 0 < ch.length)
    (hwf : chartWF g [] ch) (r : Rule)
    (hC : ∀ b ∈ r.right_side,
      (∃ w ∈ ch.getD 0 [], w.is_complete = false ∧ w.next_symbol = b) →
      ∃ c ∈ ch.getD 0 [], c.dotted_rule.left_side = b ∧ c.is_complete = true)
    (he0 : ∃ bps, (⟨⟨r, (0, 0), 0⟩, bps⟩ : EarleyChartEntry) ∈ ch.getD 0 []) :
    ∀ k, k ≤ r.right_side.length →
      ∃ bps, (⟨⟨r, (0, 0), k⟩, bps⟩ : EarleyChartEntry) ∈ ch.getD 0 [] := by
  intro k
  induction k with
  | zero => intro h; exact he0
  | succ k ih =>
    intro hk
    obtain ⟨bps, hbps⟩ := ih (Nat.le_of_succ_le hk)
    have hklt : k < r.right_side.length := hk
    have hinc : (⟨⟨r, (0, 0), k⟩, bps⟩ : EarleyChartEntry).is_complete = false := by
      unfold EarleyChartEntry.is_complete DottedRule.is_complete
      exact beq_eq_false_iff_ne.mpr (Nat.ne_of_lt hklt)
    have hb : r.right_side.getD k "" ∈ r.right_side := by
      rw [List.getD_eq_getElem _ _ hklt]
      exact List.getElem_mem hklt
    obtain ⟨c, hcmem, hcleft, hccomp⟩ := hC _ hb ⟨_, hbps, hinc, rfl⟩
    have hcwf := (hwf 0).2 c hcmem
    have hs1 : c.span.1 = 0 := Nat.le_zero.mp hcwf.2.1
    have hs2 : c.span.2 = 0 := Nat.le_zero.mp hcwf.2.2.1
    have hwait : c.is_completion_of ⟨⟨r, (0, 0), k⟩, bps⟩ = true := by
      unfold EarleyChartEntry.is_completion_of
      rw [hcleft]
      exact beq_self_eq_true _
    have hprevmem : (⟨⟨r, (0, 0), k⟩, bps⟩ : EarleyChartEntry)
        ∈ ch.getD c.span.1 [] := by
      rw [hs1]
      exact hbps
    have hres := stepAt_closed_complete g [] 0 ch hfix hlen c hcmem hccomp
      ⟨⟨r, (0, 0), k⟩, bps⟩ hprevmem hinc hwait
    rw [show ((⟨⟨r, (0, 0), k⟩, bps⟩ : EarleyChartEntry).complete c c.span.2)
        = ⟨⟨r, (0, c.span.2), k + 1⟩, bps ++ [(r.right_side.getD k "", 0)]⟩ from rfl,
      hs2] at hres
    exact ⟨_, hres⟩

theorem earley_nil_nullable_closed (g : ContextFreeGrammar) (ch : EarleyChart)
    (hfix : EarleyParser.stepAt g [] 0 ch = ch) (hlen : 0 < ch.length)
    (hwf : chartWF g [] ch)
    (hleft : ∀ r ∈ g.rulesList, g.vars.contains r.left_side = true) :
    ∀ A, Nullable g A →
      (∃ w ∈ ch.getD 0 [], w.is_complete = false ∧ w.next_symbol = A) →
      ∃ c ∈ ch.getD 0 [], c.dotted_rule.left_side = A ∧ c.is_complete = true := by
  intro A hA
  induction hA with
  | step r hr hall ih =>
    rintro ⟨w, hw, hwinc, hwnext⟩
    have hvar : g.vars.contains w.next_symbol = true := by
      rw [hwnext]
      exact hleft r hr
    have hrule : r ∈ g.rules w.next_symbol :=
      List.mem_filter.mpr ⟨hr, by rw [hwnext]; exact beq_self_eq_true _⟩
    have he0 := stepAt_closed_predict g [] 0 ch hfix hlen w hw hwinc hvar r hrule
    obtain ⟨bps, hmem⟩ := earley_nil_walk g ch hfix hlen hwf r ih ⟨[], he0⟩
      r.right_side.length (Nat.le_refl _)
    refine ⟨⟨⟨r, (0, 0), r.right_side.length⟩, bps⟩, hmem, rfl, ?_⟩
    unfold EarleyChartEntry.is_complete DottedRule.is_complete
    exact beq_self_eq_true _

theorem nullable_elim (g : ContextFreeGrammar) (A : String) (h : Nullable g A) :
    ∃ r ∈ g.rulesList, r.left_side = A ∧ ∀ b ∈ r.right_side, Nullable g b := by
  cases h with
  | step r hr hall => exact ⟨r, hr, rfl, hall⟩

theorem recognize_nil_complete (g : ContextFreeGrammar)
    (hleft : ∀ r ∈ g.rulesList, g.vars.contains r.left_side = true)
    (hA : Nullable g g.start_variable) :
    EarleyParser.recognize g [] = true := by
  have hfix := fill_chart_nil_fixpoint g
  have hlen : 0 < ((EarleyParser.fill_chart g []).1).length := by
    rw [fill_chart_length]
    omega
  have hwf := fill_chart_nil_WF g
  obtain ⟨r, hr, hrleft, hall⟩ := nullable_elim g _ hA
  have hrule : r ∈ g.rules g.start_variable :=
    List.mem_filter.mpr ⟨hr, by rw [hrleft]; exact beq_self_eq_true _⟩
  have he0 : (⟨⟨r, (0, 0), 0⟩, []⟩ : EarleyChartEntry)
      ∈ ((EarleyParser.fill_chart g []).1).getD 0 [] := by
    rw [fill_chart_nil]
    exact mem_closeAt g [] 0 (earleyFuel g []) _ 0 _ (mem_init_chart g [] r hrule)
  have hC := earley_nil_nullable_closed g _ hfix hlen hwf hleft
  obtain ⟨bps, hmem⟩ := earley_nil_walk g _ hfix hlen hwf r
    (fun b hb => hC b (hall b hb)) ⟨[], he0⟩ r.right_side.length (Nat.le_refl _)
  refine (recognize_spec g []).mpr
    ⟨⟨⟨r, (0, 0), r.right_side.length⟩, bps⟩, hmem, hrleft, rfl, ?_⟩
  show (r.right_side.length == r.right_side.length) = true
  exact beq_self_eq_true _

theorem cky_recognize_nil (g : ContextFreeGrammar) :
    CKYParser.recognize g []
      = Except.error "cannot index into the lower triangle of the chart" := rfl

/-- A grammar with an epsilon production for the start variable. -/
def epsilonGrammar : ContextFreeGrammar :=
  ⟨["a"], ["S"], [⟨"S", []⟩], "S"⟩

/-! ### Recognition/parse agreement for the probabilistic CKY parser (C1 support) -/

/-- One case split for reading a list after a set. -/
theorem getD_set_cases {α : Type} (l : List α) (i i2 : ℕ) (v d : α) :
    (l.set i v).getD i2 d = l.getD i2 d ∨ (i = i2 ∧ (l.set i v).getD i2 d = v) := by
  by_cases hi : i < l.length
  · by_cases hii : i = i2
    · subst hii
      exact Or.inr ⟨rfl, getD_set_self _ _ _ _ hi⟩
    · exact Or.inl (getD_set_ne _ _ _ _ _ hii)
  · rw [List.set_eq_of_length_le (Nat.le_of_not_lt hi)]
    exact Or.inl rfl

/-- Reading a replicated list yields the repeated element or the default. -/
theorem getD_replicate {α : Type} (m i : ℕ) (r d : α) :
    (List.replicate m r).getD i d = r ∨ (List.replicate m r).getD i d = d := by
  simp only [List.getD, List.get?_eq_getElem?, List.getElem?_replicate]
  split <;> simp

/-- Membership in a cell after a cellMod: the entry was already there or the
update function produced it from the touched cell. -/
theorem mem_cellMod_cases {β : Type} (ch : List (List (List β))) (i j : ℕ)
    (f : List β → List β) (i2 j2 : ℕ) (x : β)
    (h : x ∈ cellGet (cellMod ch i j f) i2 j2) :
    x ∈ cellGet ch i2 j2 ∨ x ∈ f (cellGet ch i j) := by
  unfold cellMod cellGet at h
  rcases getD_set_cases ch i i2 _ [] with h1 | ⟨rfl, h1⟩
  · rw [h1] at h
    exact Or.inl h
  · rw [h1] at h
    rcases getD_set_cases (ch.getD i []) j j2 _ [] with h2 | ⟨rfl, h2⟩
    · rw [h2] at h
      exact Or.inl h
    · rw [h2] at h
      exact Or.inr h

/-- The (n+1) by (n+1) shape of a chart grid. -/
def gridShape {β : Type} (ch : List (List β)) (n : ℕ) : Prop :=
  ch.length = n + 1 ∧ ∀ row ∈ ch, row.length = n + 1

theorem gridShape_cellMod {β : Type} (ch : List (List (List β))) (n i j : ℕ)
    (f : List β → List β) (h : gridShape ch n) : gridShape (cellMod ch i j f) n := by
  by_cases hi : i < ch.length
  · unfold cellMod
    refine ⟨by rw [List.length_set]; exact h.1, ?_⟩
    intro row hrow
    rcases List.mem_or_eq_of_mem_set hrow with h2 | h2
    · exact h.2 row h2
    · subst h2
      rw [List.length_set]
      refine h.2 _ ?_
      rw [List.getD_eq_getElem _ _ hi]
      exact List.getElem_mem hi
  · unfold cellMod
    rw [List.set_eq_of_length_le (Nat.le_of_not_lt hi)]
    exact h

theorem cellGet_cellMod_self {β : Type} (ch : List (List (List β))) (n i j : ℕ)
    (f : List β → List β) (h : gridShape ch n) (hi : i ≤ n) (hj : j ≤ n) :
    cellGet (cellMod ch i j f) i j = f (cellGet ch i j) := by
  have hilt : i < ch.length := by
    rw [h.1]
    omega
  have hrow : (ch.getD i []).length = n + 1 := by
    refine h.2 _ ?_
    rw [List.getD_eq_getElem _ _ hilt]
    exact List.getElem_mem hilt
  unfold cellMod cellGet
  rw [getD_set_self _ _ _ _ hilt, getD_set_self _ _ _ _ (by rw [hrow]; omega)]

theorem cellGet_cellMod_ne {β : Type} (ch : List (List (List β))) (i j : ℕ)
    (f : List β → List β) (i2 j2 : ℕ) (hne : ¬ (i2 = i ∧ j2 = j)) :
    cellGet (cellMod ch i j f) i2 j2 = cellGet ch i2 j2 := by
  unfold cellMod cellGet
  by_cases hii : i = i2
  · subst hii
    have hjj : j ≠ j2 := fun h => hne ⟨rfl, h.symm⟩
    by_cases hi : i < ch.length
    · rw [getD_set_self _ _ _ _ hi, getD_set_ne _ _ _ _ _ hjj]
    · rw [List.set_eq_of_length_le (Nat.le_of_not_lt hi)]
  · rw [getD_set_ne _ _ _ _ _ hii]

namespace PCFG

/-- The symbols of a cell. -/
def symsOf (cell : List CKYChartEntry) : List String :=
  cell.map CKYChartEntry.symbol

theorem pyEq_symbol (x y : CKYChartEntry) (h : x.pyEq y = true) :
    x.symbol = y.symbol := by
  cases x with
  | mk s p bps =>
    cases y with
    | mk s2 p2 bps2 =>
      unfold CKYChartEntry.pyEq at h
      rw [Bool.and_eq_true] at h
      exact eq_of_beq h.1

theorem mem_symsOf (cell : List CKYChartEntry) (a : String) :
    a ∈ symsOf cell ↔ ∃ e ∈ cell, e.symbol = a :=
  List.mem_map

theorem symsOf_setAdd (cell : List CKYChartEntry) (e : CKYChartEntry) (a : String) :
    a ∈ symsOf (setAdd cell e) ↔ a ∈ symsOf cell ∨ a = e.symbol := by
  unfold setAdd
  split
  · rename_i hany
    obtain ⟨x, hx, hxe⟩ := List.any_eq_true.mp hany
    constructor
    · exact Or.inl
    · rintro (h | rfl)
      · exact h
      · exact (mem_symsOf _ _).mpr ⟨x, hx, pyEq_symbol x e hxe⟩
  · unfold symsOf
    simp [List.mem_append]

theorem symsOf_aggAdd (cell : List CKYChartEntry) (p : String) (q : ℚ) (a : String) :
    a ∈ symsOf (aggAdd cell p q) ↔ a ∈ symsOf cell ∨ a = p := by
  unfold aggAdd
  split
  · rename_i e0 hfind
    have he0sym : e0.symbol = p := by
      have := List.find?_some hfind
      exact eq_of_beq (by simpa using this)
    rw [symsOf_setAdd]
    constructor
    · rintro (h | h)
      · obtain ⟨x, hx, rfl⟩ := (mem_symsOf _ _).mp h
        exact Or.inl ((mem_symsOf _ _).mpr ⟨x, List.mem_of_mem_eraseP hx, rfl⟩)
      · exact Or.inr h
    · rintro (h | rfl)
      · by_cases hap : a = p
        · exact Or.inr hap
        · obtain ⟨x, hx, rfl⟩ := (mem_symsOf _ _).mp h
          refine Or.inl ((mem_symsOf _ _).mpr ⟨x, ?_, rfl⟩)
          refine (List.mem_eraseP_of_neg ?_).mpr hx
          intro hcon
          exact hap ((pyEq_symbol x e0 (by simpa using hcon)).trans he0sym)
      · exact Or.inr rfl
  · rw [symsOf_setAdd]
    exact Iff.rfl

theorem mem_setAdd (cell : List CKYChartEntry) (e x : CKYChartEntry)
    (h : x ∈ setAdd cell e) : x ∈ cell ∨ x = e := by
  unfold setAdd at h
  split at h
  · exact Or.inl h
  · rcases List.mem_append.mp h with h2 | h2
    · exact Or.inl h2
    · exact Or.inr (List.mem_singleton.mp h2)

theorem mem_aggAdd (cell : List CKYChartEntry) (p : String) (q : ℚ)
    (x : CKYChartEntry) (h : x ∈ aggAdd cell p q) :
    x ∈ cell ∨ (∃ e0 ∈ cell, x = CKYChartEntry.mk p (e0.prob + q) [])
      ∨ x = CKYChartEntry.mk p q [] := by
  unfold aggAdd at h
  split at h
  · rename_i e0 hfind
    rcases mem_setAdd _ _ _ h with h2 | h2
    · exact Or.inl (List.mem_of_mem_eraseP h2)
    · exact Or.inr (Or.inl ⟨e0, List.mem_of_find?_eq_some hfind, h2⟩)
  · rcases mem_setAdd _ _ _ h with h2 | h2
    · exact Or.inl h2
    · exact Or.inr (Or.inr h2)

theorem exists_entry_symbol (cell : List CKYChartEntry) (P : String → Prop) :
    (∃ e ∈ cell, P e.symbol) ↔ ∃ s ∈ symsOf cell, P s := by
  constructor
  · rintro ⟨e, he, hp⟩
    exact ⟨e.symbol, List.mem_map_of_mem _ he, hp⟩
  · rintro ⟨s, hs, hp⟩
    obtain ⟨e, he, rfl⟩ := List.mem_map.mp hs
    exact ⟨e, he, hp⟩

end PCFG

namespace PCFG

/-- Effect of folding cell-insertions at (i, j) over a list: the shape is
kept, the other cells are untouched, and the symbol set of (i, j) grows by
exactly the symbols the steps contribute. -/
theorem fold_add_syms {β : Type}
    (body : List (List (List CKYChartEntry)) → β → List (List (List CKYChartEntry)))
    (S : β → String → Prop) (n i j : ℕ)
    (hshape : ∀ ch b, gridShape ch n → gridShape (body ch b) n)
    (huntouched : ∀ ch b i2 j2, gridShape ch n → ¬ (i2 = i ∧ j2 = j) →
      cellGet (body ch b) i2 j2 = cellGet ch i2 j2)
    (heffect : ∀ ch b a, gridShape ch n →
      (a ∈ symsOf (cellGet (body ch b) i j) ↔ a ∈ symsOf (cellGet ch i j) ∨ S b a)) :
    ∀ (l : List β) (ch : List (List (List CKYChartEntry))), gridShape ch n →
      gridShape (l.foldl body ch) n
      ∧ (∀ i2 j2, ¬ (i2 = i ∧ j2 = j) →
          cellGet (l.foldl body ch) i2 j2 = cellGet ch i2 j2)
      ∧ ∀ a, (a ∈ symsOf (cellGet (l.foldl body ch) i j)
          ↔ a ∈ symsOf (cellGet ch i j) ∨ ∃ b ∈ l, S b a) := by
  intro l
  induction l with
  | nil =>
    intro ch hch
    exact ⟨hch, fun i2 j2 h => rfl, fun a => by simp⟩
  | cons b bs ih =>
    intro ch hch
    have h1 := ih (body ch b) (hshape ch b hch)
    refine ⟨h1.1, ?_, ?_⟩
    · intro i2 j2 hne
      show cellGet (bs.foldl body (body ch b)) i2 j2 = cellGet ch i2 j2
      rw [h1.2.1 i2 j2 hne, huntouched ch b i2 j2 hch hne]
    · intro a
      show a ∈ symsOf (cellGet (bs.foldl body (body ch b)) i j)
        ↔ a ∈ symsOf (cellGet ch i j) ∨ ∃ b2 ∈ b :: bs, S b2 a
      rw [h1.2.2 a, heffect ch b a hch]
      constructor
      · rintro ((h | h) | ⟨b2, hb2, hS⟩)
        · exact Or.inl h
        · exact Or.inr ⟨b, List.mem_cons_self b bs, h⟩
        · exact Or.inr ⟨b2, List.mem_cons_of_mem b hb2, hS⟩
      · rintro (h | ⟨b2, hb2, hS⟩)
        · exact Or.inl (Or.inl h)
        · rcases List.mem_cons.mp hb2 with rfl | h2
          · exact Or.inl (Or.inr hS)
          · exact Or.inr ⟨b2, h2, hS⟩

/-- One iteration of the split-point loop of the probabilistic filler with
keep_backtraces=True, reading the child cells (i, k) and (k, j) from the
chart as it stood at the start of the iteration. -/
def btStep (g : ProbabilisticContextFreeGrammar) (i j : ℕ)
    (ch : List (List (List CKYChartEntry))) (k : ℕ) :
    List (List (List CKYChartEntry)) :=
  (cellGet ch i k).foldl (fun ch4 le =>
    (cellGet ch k j).foldl (fun ch5 re =>
      (g.reduce [le.symbol, re.symbol]).foldl (fun ch6 pr =>
        cellMod ch6 i j (fun cell =>
          setAdd cell (.mk pr.1 (pr.2 * le.prob * re.prob) [le, re]))) ch5) ch4) ch

/-- One iteration of the split-point loop with keep_backtraces=False. -/
def aggStep (g : ProbabilisticContextFreeGrammar) (i j : ℕ)
    (ch : List (List (List CKYChartEntry))) (k : ℕ) :
    List (List (List CKYChartEntry)) :=
  (cellGet ch i k).foldl (fun ch4 le =>
    (cellGet ch k j).foldl (fun ch5 re =>
      (g.reduce [le.symbol, re.symbol]).foldl (fun ch6 pr =>
        cellMod ch6 i j (fun cell =>
          aggAdd cell pr.1 (pr.2 * le.prob * re.prob))) ch5) ch4) ch

theorem fill_chart_true_eq (g : ProbabilisticContextFreeGrammar) (string : List String) :
    CKYParser.fill_chart g string true
      = (List.range' 2 (string.length - 1)).foldl (fun ch len =>
          (List.range (string.length - len + 1)).foldl (fun ch2 i =>
            (List.range' (i + 1) (len - 1)).foldl (btStep g i (i + len)) ch2) ch)
        (CKYParser.base_chart g string) := rfl

theorem fill_chart_false_eq (g : ProbabilisticContextFreeGrammar) (string : List String) :
    CKYParser.fill_chart g string false
      = (List.range' 2 (string.length - 1)).foldl (fun ch len =>
          (List.range (string.length - len + 1)).foldl (fun ch2 i =>
            (List.range' (i + 1) (len - 1)).foldl (aggStep g i (i + len)) ch2) ch)
        (CKYParser.base_chart g string) := rfl

end PCFG

namespace PCFG

/-- Effect of the innermost non-terminal loop: folding cell updates at
(i, j) over the reduce pairs. -/
theorem prfold_effect (n i j : ℕ) (hin : i ≤ n) (hjn : j ≤ n)
    (F : String × ℚ → List CKYChartEntry → List CKYChartEntry)
    (hF : ∀ pr cell a, a ∈ symsOf (F pr cell) ↔ a ∈ symsOf cell ∨ a = pr.1)
    (ps : List (String × ℚ)) (ch : List (List (List CKYChartEntry)))
    (hch : gridShape ch n) :
    gridShape (ps.foldl (fun ch6 pr => cellMod ch6 i j (F pr)) ch) n
    ∧ (∀ i2 j2, ¬ (i2 = i ∧ j2 = j) →
        cellGet (ps.foldl (fun ch6 pr => cellMod ch6 i j (F pr)) ch) i2 j2
          = cellGet ch i2 j2)
    ∧ ∀ a, a ∈ symsOf (cellGet (ps.foldl (fun ch6 pr => cellMod ch6 i j (F pr)) ch) i j)
        ↔ a ∈ symsOf (cellGet ch i j) ∨ ∃ pr ∈ ps, a = pr.1 :=
  fold_add_syms _ (fun pr a => a = pr.1) n i j
    (fun ch4 pr h => gridShape_cellMod ch4 n i j _ h)
    (fun ch4 pr i2 j2 h hne => cellGet_cellMod_ne ch4 i j _ i2 j2 hne)
    (fun ch4 pr a h => by
      rw [cellGet_cellMod_self ch4 n i j _ h hin hjn]
      exact hF pr _ a)
    ps ch hch

/-- Effect of the right-child loop. -/
theorem refold_effect (n i j : ℕ) (hin : i ≤ n) (hjn : j ≤ n)
    (ps : CKYChartEntry → List (String × ℚ))
    (F : CKYChartEntry → String × ℚ → List CKYChartEntry → List CKYChartEntry)
    (hF : ∀ re pr cell a, a ∈ symsOf (F re pr cell) ↔ a ∈ symsOf cell ∨ a = pr.1)
    (res : List CKYChartEntry) (ch : List (List (List CKYChartEntry)))
    (hch : gridShape ch n) :
    gridShape (res.foldl (fun ch5 re =>
        (ps re).foldl (fun ch6 pr => cellMod ch6 i j (F re pr)) ch5) ch) n
    ∧ (∀ i2 j2, ¬ (i2 = i ∧ j2 = j) →
        cellGet (res.foldl (fun ch5 re =>
          (ps re).foldl (fun ch6 pr => cellMod ch6 i j (F re pr)) ch5) ch) i2 j2
          = cellGet ch i2 j2)
    ∧ ∀ a, a ∈ symsOf (cellGet (res.foldl (fun ch5 re =>
          (ps re).foldl (fun ch6 pr => cellMod ch6 i j (F re pr)) ch5) ch) i j)
        ↔ a ∈ symsOf (cellGet ch i j) ∨ ∃ re ∈ res, ∃ pr ∈ ps re, a = pr.1 :=
  fold_add_syms _ (fun re a => ∃ pr ∈ ps re, a = pr.1) n i j
    (fun ch3 re h => (prfold_effect n i j hin hjn (F re) (hF re) (ps re) ch3 h).1)
    (fun ch3 re i2 j2 h hne =>
      (prfold_effect n i j hin hjn (F re) (hF re) (ps re) ch3 h).2.1 i2 j2 hne)
    (fun ch3 re a h =>
      (prfold_effect n i j hin hjn (F re) (hF re) (ps re) ch3 h).2.2 a)
    res ch hch

/-- Effect of the left-child loop. -/
theorem lefold_effect (n i j : ℕ) (hin : i ≤ n) (hjn : j ≤ n)
    (ps : CKYChartEntry → CKYChartEntry → List (String × ℚ))
    (F : CKYChartEntry → CKYChartEntry → String × ℚ →
      List CKYChartEntry → List CKYChartEntry)
    (hF : ∀ le re pr cell a,
      a ∈ symsOf (F le re pr cell) ↔ a ∈ symsOf cell ∨ a = pr.1)
    (R L : List CKYChartEntry) (ch : List (List (List CKYChartEntry)))
    (hch : gridShape ch n) :
    gridShape (L.foldl (fun ch4 le => R.foldl (fun ch5 re =>
        (ps le re).foldl (fun ch6 pr => cellMod ch6 i j (F le re pr)) ch5) ch4) ch) n
    ∧ (∀ i2 j2, ¬ (i2 = i ∧ j2 = j) →
        cellGet (L.foldl (fun ch4 le => R.foldl (fun ch5 re =>
          (ps le re).foldl (fun ch6 pr => cellMod ch6 i j (F le re pr)) ch5) ch4) ch)
            i2 j2
          = cellGet ch i2 j2)
    ∧ ∀ a, a ∈ symsOf (cellGet (L.foldl (fun ch4 le => R.foldl (fun ch5 re =>
          (ps le re).foldl (fun ch6 pr => cellMod ch6 i j (F le re pr)) ch5) ch4) ch)
            i j)
        ↔ a ∈ symsOf (cellGet ch i j)
          ∨ ∃ le ∈ L, ∃ re ∈ R, ∃ pr ∈ ps le re, a = pr.1 :=
  fold_add_syms _ (fun le a => ∃ re ∈ R, ∃ pr ∈ ps le re, a = pr.1) n i j
    (fun ch2 le h =>
      (refold_effect n i j hin hjn (ps le) (F le) (hF le) R ch2 h).1)
    (fun ch2 le i2 j2 h hne =>
      (refold_effect n i j hin hjn (ps le) (F le) (hF le) R ch2 h).2.1 i2 j2 hne)
    (fun ch2 le a h =>
      (refold_effect n i j hin hjn (ps le) (F le) (hF le) R ch2 h).2.2 a)
    L ch hch

theorem btStep_effect (g : ProbabilisticContextFreeGrammar) (n i j k : ℕ)
    (hin : i ≤ n) (hjn : j ≤ n)
    (ch : List (List (List CKYChartEntry))) (hch : gridShape ch n) :
    gridShape (btStep g i j ch k) n
    ∧ (∀ i2 j2, ¬ (i2 = i ∧ j2 = j) →
        cellGet (btStep g i j ch k) i2 j2 = cellGet ch i2 j2)
    ∧ ∀ a, a ∈ symsOf (cellGet (btStep g i j ch k) i j)
        ↔ a ∈ symsOf (cellGet ch i j)
          ∨ ∃ le ∈ cellGet ch i k, ∃ re ∈ cellGet ch k j,
              ∃ pr ∈ g.reduce [le.symbol, re.symbol], a = pr.1 := by
  unfold btStep
  exact lefold_effect n i j hin hjn
    (fun le re => g.reduce [le.symbol, re.symbol])
    (fun le re pr cell => setAdd cell (.mk pr.1 (pr.2 * le.prob * re.prob) [le, re]))
    (fun le re pr cell a => by rw [symsOf_setAdd]; exact Iff.rfl)
    (cellGet ch k j) (cellGet ch i k) ch hch

theorem aggStep_effect (g : ProbabilisticContextFreeGrammar) (n i j k : ℕ)
    (hin : i ≤ n) (hjn : j ≤ n)
    (ch : List (List (List CKYChartEntry))) (hch : gridShape ch n) :
    gridShape (aggStep g i j ch k) n
    ∧ (∀ i2 j2, ¬ (i2 = i ∧ j2 = j) →
        cellGet (aggStep g i j ch k) i2 j2 = cellGet ch i2 j2)
    ∧ ∀ a, a ∈ symsOf (cellGet (aggStep g i j ch k) i j)
        ↔ a ∈ symsOf (cellGet ch i j)
          ∨ ∃ le ∈ cellGet ch i k, ∃ re ∈ cellGet ch k j,
              ∃ pr ∈ g.reduce [le.symbol, re.symbol], a = pr.1 := by
  unfold aggStep
  exact lefold_effect n i j hin hjn
    (fun le re => g.reduce [le.symbol, re.symbol])
    (fun le re pr cell => aggAdd cell pr.1 (pr.2 * le.prob * re.prob))
    (fun le re pr cell a => symsOf_aggAdd cell pr.1 (pr.2 * le.prob * re.prob) a)
    (cellGet ch k j) (cellGet ch i k) ch hch

end PCFG

/-- Folding two functions in lockstep preserves a binary relation. -/
theorem foldl_rel {α β γ : Type} (R : β → γ → Prop) (f : β → α → β) (h : γ → α → γ) :
    ∀ (l : List α) (b : β) (c : γ), R b c →
      (∀ b2 c2 a, a ∈ l → R b2 c2 → R (f b2 a) (h c2 a)) →
      R (l.foldl f b) (l.foldl h c) := by
  intro l
  induction l with
  | nil =>
    intro b c hbc _
    exact hbc
  | cons a as ih =>
    intro b c hbc hstep
    exact ih _ _ (hstep b c a (List.mem_cons_self a as) hbc)
      (fun b2 c2 a2 ha2 => hstep b2 c2 a2 (List.mem_cons_of_mem a ha2))

namespace PCFG

/-- The simulation between the two fill modes: both charts are shaped and
every cell holds the same set of symbols. -/
def chartRel (n : ℕ) (chA chB : List (List (List CKYChartEntry))) : Prop :=
  gridShape chA n ∧ gridShape chB n
  ∧ ∀ i j a, a ∈ symsOf (cellGet chA i j) ↔ a ∈ symsOf (cellGet chB i j)

theorem sym_transfer (g : ProbabilisticContextFreeGrammar) (a : String)
    (L R L2 R2 : List CKYChartEntry)
    (hL : ∀ s, s ∈ symsOf L ↔ s ∈ symsOf L2)
    (hR : ∀ s, s ∈ symsOf R ↔ s ∈ symsOf R2) :
    (∃ le ∈ L, ∃ re ∈ R, ∃ pr ∈ g.reduce [le.symbol, re.symbol], a = pr.1) →
    ∃ le ∈ L2, ∃ re ∈ R2, ∃ pr ∈ g.reduce [le.symbol, re.symbol], a = pr.1 := by
  rintro ⟨le, hle, re, hre, pr, hpr, ha⟩
  obtain ⟨le2, hle2, hsymle⟩ := (mem_symsOf L2 le.symbol).mp
    ((hL le.symbol).mp (List.mem_map_of_mem _ hle))
  obtain ⟨re2, hre2, hsymre⟩ := (mem_symsOf R2 re.symbol).mp
    ((hR re.symbol).mp (List.mem_map_of_mem _ hre))
  exact ⟨le2, hle2, re2, hre2, pr, by rw [hsymle, hsymre]; exact hpr, ha⟩

theorem kstep_rel (g : ProbabilisticContextFreeGrammar) (n i j k : ℕ)
    (hin : i ≤ n) (hjn : j ≤ n)
    (chA chB : List (List (List CKYChartEntry))) (hR : chartRel n chA chB) :
    chartRel n (aggStep g i j chA k) (btStep g i j chB k) := by
  obtain ⟨hA, hB, hsym⟩ := hR
  have hAeff := aggStep_effect g n i j k hin hjn chA hA
  have hBeff := btStep_effect g n i j k hin hjn chB hB
  refine ⟨hAeff.1, hBeff.1, ?_⟩
  intro i2 j2 a
  by_cases hcell : i2 = i ∧ j2 = j
  · obtain ⟨rfl, rfl⟩ := hcell
    rw [hAeff.2.2 a, hBeff.2.2 a, hsym i2 j2 a]
    refine or_congr_right ⟨?_, ?_⟩
    · exact sym_transfer g a _ _ _ _ (fun s => hsym i2 k s) (fun s => hsym k j2 s)
    · exact sym_transfer g a _ _ _ _ (fun s => (hsym i2 k s).symm)
        (fun s => (hsym k j2 s).symm)
  · rw [hAeff.2.1 i2 j2 hcell, hBeff.2.1 i2 j2 hcell]
    exact hsym i2 j2 a

theorem gridShape_emptyChart (n : ℕ) : gridShape (emptyChart n) n := by
  unfold emptyChart
  refine ⟨List.length_replicate _ _, ?_⟩
  intro row hrow
  rw [List.eq_of_mem_replicate hrow]
  exact List.length_replicate _ _

theorem gridShape_base_chart (g : ProbabilisticContextFreeGrammar)
    (string : List String) :
    gridShape (CKYParser.base_chart g string) string.length := by
  unfold CKYParser.base_chart
  refine foldl_preserve (fun c => gridShape c string.length) _ _ _
    (gridShape_emptyChart _) ?_
  intro c jj hc
  refine foldl_preserve (fun c2 => gridShape c2 string.length) _ _ _ hc ?_
  intro c2 sp hc2
  exact gridShape_cellMod c2 _ _ _ _ hc2

/-- The two fill modes agree on shape and on every cell symbol set. -/
theorem fill_rel (g : ProbabilisticContextFreeGrammar) (string : List String) :
    chartRel string.length (CKYParser.fill_chart g string false)
      (CKYParser.fill_chart g string true) := by
  rw [fill_chart_false_eq, fill_chart_true_eq]
  refine foldl_rel (chartRel string.length) _ _ _ _ _
    ⟨gridShape_base_chart g string, gridShape_base_chart g string,
      fun i j a => Iff.rfl⟩ ?_
  intro chA chB len hlen hR
  refine foldl_rel (chartRel string.length) _ _ _ _ _ hR ?_
  intro chA2 chB2 i hi hR2
  refine foldl_rel (chartRel string.length) _ _ _ _ _ hR2 ?_
  intro chA3 chB3 k hk hR3
  have hlen2 := List.mem_range'_1.mp hlen
  have hi2 := List.mem_range.mp hi
  exact kstep_rel g string.length i (i + len) k (by omega) (by omega) chA3 chB3 hR3

/-- Every entry stored in a chart cell has positive probability. -/
def chartPos (ch : List (List (List CKYChartEntry))) : Prop :=
  ∀ i j, ∀ e ∈ cellGet ch i j, 0 < e.prob

theorem reduce_prob_pos (g : ProbabilisticContextFreeGrammar)
    (hpos : ∀ r ∈ g.rulesList, 0 < r.prob) (rs : List String)
    (pr : String × ℚ) (hpr : pr ∈ g.reduce rs) : 0 < pr.2 := by
  unfold ProbabilisticContextFreeGrammar.reduce at hpr
  obtain ⟨r, hr, rfl⟩ := List.mem_map.mp hpr
  exact hpos r (List.mem_filter.mp hr).1

theorem chartPos_cellMod (ch : List (List (List CKYChartEntry))) (i j : ℕ)
    (f : List CKYChartEntry → List CKYChartEntry) (hch : chartPos ch)
    (hf : ∀ x ∈ f (cellGet ch i j), 0 < CKYChartEntry.prob x) :
    chartPos (cellMod ch i j f) := by
  intro i2 j2 e he
  rcases mem_cellMod_cases ch i j f i2 j2 e he with h | h
  · exact hch i2 j2 e h
  · exact hf e h

theorem setAdd_pos (cell : List CKYChartEntry) (e : CKYChartEntry)
    (hcell : ∀ x ∈ cell, 0 < CKYChartEntry.prob x) (he : 0 < e.prob) :
    ∀ x ∈ setAdd cell e, 0 < CKYChartEntry.prob x := by
  intro x hx
  rcases mem_setAdd cell e x hx with h | rfl
  · exact hcell x h
  · exact he

theorem aggAdd_pos (cell : List CKYChartEntry) (p : String) (q : ℚ)
    (hcell : ∀ x ∈ cell, 0 < CKYChartEntry.prob x) (hq : 0 < q) :
    ∀ x ∈ aggAdd cell p q, 0 < CKYChartEntry.prob x := by
  intro x hx
  rcases mem_aggAdd cell p q x hx with h | ⟨e0, he0, rfl⟩ | h
  · exact hcell x h
  · show 0 < e0.prob + q
    exact add_pos (hcell e0 he0) hq
  · subst h
    exact hq

theorem cellGet_emptyChart (n i j : ℕ) : cellGet (emptyChart n) i j = [] := by
  unfold emptyChart cellGet
  rcases getD_replicate (n + 1) i
      (List.replicate (n + 1) ([] : List CKYChartEntry)) [] with h | h
  · rw [h, getD_replicate_nil]
  · rw [h]
    rfl

theorem chartPos_base (g : ProbabilisticContextFreeGrammar) (string : List String)
    (hpos : ∀ r ∈ g.rulesList, 0 < r.prob) :
    chartPos (CKYParser.base_chart g string) := by
  unfold CKYParser.base_chart
  refine foldl_preserve chartPos _ _ _ ?_ ?_
  · intro i j e he
    rw [cellGet_emptyChart] at he
    cases he
  · intro c jj hc
    refine foldl_preserve_mem chartPos _ _ _ hc ?_
    intro c2 sp hsp hc2
    refine chartPos_cellMod c2 _ _ _ hc2 ?_
    intro x hx
    rcases mem_setAdd _ _ _ hx with h | rfl
    · exact hc2 _ _ x h
    · exact reduce_prob_pos g hpos _ sp hsp

theorem chartPos_aggStep (g : ProbabilisticContextFreeGrammar)
    (hpos : ∀ r ∈ g.rulesList, 0 < r.prob) (i j k : ℕ)
    (ch : List (List (List CKYChartEntry))) (hch : chartPos ch) :
    chartPos (aggStep g i j ch k) := by
  unfold aggStep
  refine foldl_preserve_mem chartPos _ _ _ hch ?_
  intro c le hle hc
  refine foldl_preserve_mem chartPos _ _ _ hc ?_
  intro c2 re hre hc2
  refine foldl_preserve_mem chartPos _ _ _ hc2 ?_
  intro c3 pr hpr hc3
  refine chartPos_cellMod c3 i j _ hc3 ?_
  refine aggAdd_pos _ _ _ (fun x hx => hc3 i j x hx) ?_
  have h1 : 0 < pr.2 := reduce_prob_pos g hpos _ pr hpr
  have h2 : 0 < le.prob := hch i k le hle
  have h3 : 0 < re.prob := hch k j re hre
  exact mul_pos (mul_pos h1 h2) h3

theorem chartPos_fill_false (g : ProbabilisticContextFreeGrammar)
    (string : List String) (hpos : ∀ r ∈ g.rulesList, 0 < r.prob) :
    chartPos (CKYParser.fill_chart g string false) := by
  rw [fill_chart_false_eq]
  refine foldl_preserve chartPos _ _ _ (chartPos_base g string hpos) ?_
  intro c len hc
  refine foldl_preserve chartPos _ _ _ hc ?_
  intro c2 i hc2
  refine foldl_preserve chartPos _ _ _ hc2 ?_
  intro c3 k hc3
  exact chartPos_aggStep g hpos i (i + len) k c3 hc3

end PCFG

/-- Reading the top-right cell of a well-shaped chart succeeds. -/
theorem gridGetitem_ok {β : Type} (ch : List (List (List β))) (n : ℕ)
    (hsh : gridShape ch n) (hn : 0 < n) :
    gridGetitem ch 0 (n : ℤ) = .ok (cellGet ch 0 n) := by
  cases ch with
  | nil => exact absurd hsh.1 (by simp)
  | cons row rest =>
    have hrowlen : row.length = n + 1 := hsh.2 row (List.mem_cons_self _ _)
    have hget : row.get? n = some (row.getD n []) := by
      rw [List.getD_eq_getElem _ _ (by omega), List.get?_eq_getElem?]
      exact List.getElem?_eq_getElem (by omega)
    have hrowget : pyListGet row (n : ℤ) = some (row.getD n []) := by
      unfold pyListGet
      rw [if_pos (by omega : (0:ℤ) ≤ (n:ℤ)), Int.toNat_natCast]
      exact hget
    have hchget : pyListGet (row :: rest) (0 : ℤ) = some row := rfl
    unfold gridGetitem validate_index
    rw [if_neg (by omega : ¬ ¬ (0:ℤ) < (n:ℤ)), hchget]
    dsimp only
    rw [hrowget]
    rfl

/-! ### Claim theorems -/

/-- C10: for every grammar and every input, calling a parser with a mode
argument other than recognize or parse raises ValueError before any chart
is constructed or filled; the duck-typed base parser (here parameterized
over arbitrary recognize and parse behaviours, which the dispatch never
invokes) and the probabilistic CKY parser enforce this identically. -/
theorem C10_mode_rejection {ρ π : Type} (recognize : List String → ρ)
    (parse : List String → π) (g : ProbabilisticContextFreeGrammar)
    (string pstring : List String) (mode : String)
    (h1 : mode ≠ "recognize") (h2 : mode ≠ "parse") :
    ContextFreeGrammarParser.call recognize parse string mode
      = .error "mode must be \"parse\" or \"recognize\""
    ∧ PCFG.CKYParser.call g pstring mode
      = .error "mode must be \"parse\" or \"recognize\"" := by
  unfold ContextFreeGrammarParser.call PCFG.CKYParser.call
  rw [if_neg h1, if_neg h2, if_neg h1, if_neg h2]
  exact ⟨rfl, rfl⟩

/-- Witness for C10 at a concrete grammar, input and bad mode. -/
theorem C10_mode_rejection_witness :
    ContextFreeGrammarParser.call (fun _ => true) (fun _ => ([] : List Tree)) ["un"] "frobnicate"
      = .error "mode must be \"parse\" or \"recognize\""
    ∧ PCFG.CKYParser.call ambiguousPCFG ["a", "b"] "frobnicate"
      = .error "mode must be \"parse\" or \"recognize\"" :=
  C10_mode_rejection _ _ ambiguousPCFG ["un"] ["a", "b"] "frobnicate"
    (by decide) (by decide)

/-- C3: on the unhappiness grammar with input [un, happy, ness], the Earley
parser recognizes the input, as the claim says, but parse mode returns the
single childless tree Word instead of the documented tree
Word(N(Adj(Prefix(un), Adj(happy)), Suffix(ness))): the complete method
records, in each backpointer, the start position of the completing child,
while the parse construction of the source pseudocode looks complete
children up at their chart position, which is their end position, so no
child is ever found. -/
theorem C3_concrete_scenario_eval :
    EarleyParser.recognize unhappinessGrammar ["un", "happy", "ness"] = true
    ∧ EarleyParser.parse unhappinessGrammar ["un", "happy", "ness"]
        = [Tree.node "Word" []]
    ∧ Tree.node "Word" [] ≠ unhappinessTree :=
  ⟨by rfl, by rfl, by decide⟩

/-- C1, counterexample: on the CNF grammar with the single rule Word -> un
and input [un], the plain CKY parser recognizes the string, yet parse mode
returns the empty tree set, because the parses property pairs backpointers
off two at a time and the single terminal backpointer of a base entry is
dropped, and recognition and parse share no start-symbol filtering.  So
recognize(g, input) = true does not imply parse(g, input) nonempty. -/
theorem C1_recognition_parse_agreement_counterexample :
    CKYParser.recognize wordUnGrammar ["un"] = .ok true
    ∧ CKYParser.parse wordUnGrammar ["un"] = .ok [] :=
  ⟨rfl, rfl⟩

/-- C2, counterexample: the aggregate branch of the probabilistic CKY chart
filler (keep_backtraces=False) does not only add entries: combining a
second derivation of symbol A into a cell already holding an entry for A
removes that entry and inserts a replacement with the summed probability,
so the original entry (with probability 1/2) is no longer in the cell. -/
theorem C2_chart_monotonicity_counterexample :
    PCFG.aggAdd [PCFG.CKYChartEntry.mk "A" (1/2) []] "A" (1/4)
      = [PCFG.CKYChartEntry.mk "A" (3/4) []]
    ∧ PCFG.CKYChartEntry.mk "A" (1/2) []
        ∉ PCFG.aggAdd [PCFG.CKYChartEntry.mk "A" (1/2) []] "A" (1/4) := by
  have h : PCFG.aggAdd [PCFG.CKYChartEntry.mk "A" (1/2) []] "A" (1/4)
      = [PCFG.CKYChartEntry.mk "A" (3/4) []] := by with_unfolding_all rfl
  refine ⟨h, ?_⟩
  intro hm
  rw [h] at hm
  rcases List.mem_singleton.mp hm with h2
  injection h2 with _ hp _
  norm_num at hp

/-- C7: constructing a grammar, plain or probabilistic, fails with
ValueError whenever the alphabet and the variables share an element or the
start variable is not a declared variable; the error is raised by the
constructor (and for the plain grammar these are the only construction
failures). -/
theorem C7_grammar_validation (alphabet vars : List String) (rules : List Rule)
    (prules : List ProbabilisticRule) (start_variable : String)
    (h : (∃ a ∈ alphabet, a ∈ vars) ∨ start_variable ∉ vars) :
    (∃ msg, mkContextFreeGrammar alphabet vars rules start_variable = .error msg)
    ∧ (∃ msg, mkProbabilisticContextFreeGrammar alphabet vars prules start_variable
        = .error msg) := by
  obtain ⟨msg, hmsg⟩ := (validate_variables_error_iff alphabet vars start_variable).mpr h
  constructor
  · exact ⟨msg, by unfold mkContextFreeGrammar; rw [hmsg]; rfl⟩
  · exact ⟨msg, by unfold mkProbabilisticContextFreeGrammar; rw [hmsg]; rfl⟩

/-- Witness for C7 at a concrete overlapping alphabet and variable set. -/
theorem C7_grammar_validation_witness :
    (∃ msg, mkContextFreeGrammar ["a"] ["a", "A"] [] "A" = .error msg)
    ∧ (∃ msg, mkProbabilisticContextFreeGrammar ["a"] ["a", "A"] [] "A" = .error msg) :=
  C7_grammar_validation ["a"] ["a", "A"] [] [] "A" (by decide)

/-- C6 (amended): reading a CKY chart through getitem raises ValueError
exactly when the span has start at or past the end or a coordinate past
the chart size; but writes are not guarded: setitem succeeds on any
in-range coordinates, the lower triangle included, and the Earley chart
validates neither reads nor writes. -/
theorem C6_span_validation (n i j : ℕ) (item : List CKYChartEntry) :
    ((∃ msg, (CKYChart.new n).getitem (i : ℤ) (j : ℤ) = .error msg)
        ↔ (j ≤ i ∨ n + 1 ≤ i ∨ n + 1 ≤ j))
    ∧ (i ≤ n → j ≤ n → ∃ c, (CKYChart.new n).setitem (i : ℤ) (j : ℤ) item = some c) := by
  constructor
  · show (∃ msg, gridGetitem (CKYChart.new n).chart (i : ℤ) (j : ℤ) = .error msg) ↔ _
    rw [gridGetitem_new]
    by_cases h1 : j ≤ i
    · simp [h1]
    · rw [if_neg h1]
      by_cases h2 : n + 1 ≤ i
      · simp [h1, h2]
      · rw [if_neg h2]
        by_cases h3 : n + 1 ≤ j
        · simp [h1, h2, h3]
        · rw [if_neg h3]
          simp [h1, h2, h3]
  · intro hi hj
    show ∃ c, (gridSetitem (CKYChart.new n).chart (i : ℤ) (j : ℤ) item).map _ = some c
    unfold gridSetitem CKYChart.new pyListSet
    rw [pyListGet_replicate, if_pos (by omega)]
    simp only [Option.bind_eq_bind, Option.some_bind]
    rw [if_pos (Int.natCast_nonneg j), if_pos (by simp; omega)]
    simp only [Option.some_bind]
    rw [if_pos (Int.natCast_nonneg i), if_pos (by simp; omega)]
    exact ⟨_, rfl⟩

/-- Witness for C6: on a fresh chart for two tokens, reading the diagonal
cell (1,1) raises, and writing cell (2,1) succeeds. -/
theorem C6_span_validation_witness :
    ((∃ msg, (CKYChart.new 2).getitem (1 : ℤ) (1 : ℤ) = .error msg))
    ∧ (∃ c, (CKYChart.new 2).setitem (2 : ℤ) (1 : ℤ) [⟨"X", []⟩] = some c) :=
  ⟨((C6_span_validation 2 1 1 []).1).mpr (by omega),
   (C6_span_validation 2 2 1 [⟨"X", []⟩]).2 (by omega) (by omega)⟩

/-- C6, counterexample: writing the lower-triangle cell (1,0) of a CKY
chart does not fail with ValueError; the claim says every lower-triangle
indexing, writes included, must fail. -/
theorem C6_span_validation_counterexample :
    (CKYChart.new 2).setitem (1 : ℤ) (0 : ℤ) [⟨"X", []⟩]
      = some ⟨2, [List.replicate 3 [], [[⟨"X", []⟩], [], []], List.replicate 3 []]⟩ := by
  rfl

/-- C8 (amended): given the variable checks pass and every rule is well
formed, probabilistic grammar construction fails with ValueError exactly
when the probabilities of the rules headed by some non-terminal fall
outside the np.isclose tolerance around 1, namely absolute difference at
most 1e-5 (the relative part) plus the numpy default absolute tolerance
1e-8 — not the bare relative tolerance 1e-5 the claim states. -/
theorem C8_probability_validation (alphabet vars : List String)
    (rules : List ProbabilisticRule) (start_variable : String)
    (hv : validate_variables alphabet vars start_variable = .ok ())
    (hr : ∀ r ∈ pyDedupPR rules, r.validate alphabet vars = .ok ()) :
    (∃ msg, mkProbabilisticContextFreeGrammar alphabet vars rules start_variable = .error msg)
      ↔ ∃ nt ∈ leftSides (pyDedupPR rules),
          npIsClose (sumProb (pyDedupPR rules) nt) 1 = false := by
  have hmk : mkProbabilisticContextFreeGrammar alphabet vars rules start_variable
      = (validate_rules alphabet vars (pyDedupPR rules) >>= fun _ =>
          Except.ok ⟨alphabet, vars, pyDedupPR rules, start_variable⟩) := by
    unfold mkProbabilisticContextFreeGrammar
    rw [hv]
    rfl
  have hvr : validate_rules alphabet vars (pyDedupPR rules)
      = (match (leftSides (pyDedupPR rules)).find?
          (fun nt => ! npIsClose (sumProb (pyDedupPR rules) nt) 1) with
        | some nt => Except.error ("Rules for " ++ nt ++ " do not sum to 1.0")
        | none => Except.ok ()) := by
    unfold validate_rules
    rw [forM_ok _ _ hr]
    rfl
  rw [hmk, hvr]
  rcases hfind : (leftSides (pyDedupPR rules)).find?
      (fun nt => ! npIsClose (sumProb (pyDedupPR rules) nt) 1) with _ | nt
  · rw [List.find?_eq_none] at hfind
    constructor
    · rintro ⟨msg, hmsg⟩
      cases hmsg
    · rintro ⟨nt, hmem, hcl⟩
      exact absurd (by simp [hcl]) (hfind nt hmem)
  · constructor
    · intro _
      have hp := List.find?_some hfind
      refine ⟨nt, List.mem_of_find?_eq_some hfind, ?_⟩
      simpa using hp
    · intro _
      exact ⟨_, rfl⟩

/-- Witness for C8: a grammar whose sole rule for A has probability 1/2
fails construction with the distribution error. -/
theorem C8_probability_validation_witness :
    ∃ msg, mkProbabilisticContextFreeGrammar ["a"] ["A"] [⟨"A", ["a"], 1/2⟩] "A"
      = .error msg :=
  (C8_probability_validation ["a"] ["A"] [⟨"A", ["a"], 1/2⟩] "A" rfl
    (by intro r hr; simp [pyDedupPR, insertPR] at hr; rw [hr]; rfl)).mpr
    ⟨"A", by simp [leftSides, pyDedupPR, insertPR, pyDedup, insertE],
      by with_unfolding_all decide⟩

/-- C8, counterexample: the rule probabilities for A sum to 1 + 1.0005e-5,
which is not within relative tolerance 1e-5 of 1, yet construction
succeeds, because np.isclose also grants the default absolute tolerance
1e-8 on top of the relative one. -/
theorem C8_probability_validation_counterexample :
    ¬ (|sumProb (pyDedupPR toleranceRules) "A" - 1| ≤ 1/100000)
    ∧ (∃ gr, mkProbabilisticContextFreeGrammar ["a"] ["A"] toleranceRules "A" = .ok gr) :=
  ⟨by with_unfolding_all decide,
   ⟨⟨["a"], ["A"], pyDedupPR toleranceRules, "A"⟩, by with_unfolding_all rfl⟩⟩

/-- C4: the Earley recognize operation returns true iff the chart cell at
the final position, whose index is the input length n, contains an entry
whose dotted rule has the start variable as its left side, spans [0, n)
and is complete. -/
theorem C4_earley_recognition (g : ContextFreeGrammar) (string : List String) :
    EarleyParser.recognize g string = true
      ↔ ∃ e ∈ ((EarleyParser.fill_chart g string).1).getD string.length [],
          e.dotted_rule.left_side = g.start_variable
          ∧ e.dotted_rule.span = (0, string.length)
          ∧ e.dotted_rule.is_complete = true :=
  recognize_spec g string

/-- C2 (amended): chart filling only adds entries in the Earley parser
(each predict/scan/complete application and each closure pass preserves
every entry already present at every position), completing a dotted rule
produces a new entry distinct from the waiting one, and the probabilistic
CKY filler in backtrace mode only adds entries (a cell insert keeps the
cell, and every base entry is still present in the fully filled chart).
The aggregate mode (keep_backtraces=False) is excluded: there an entry can
be removed and replaced when probabilities are combined (see the
counterexample). -/
theorem C2_chart_monotonicity (g : ContextFreeGrammar)
    (pg : ProbabilisticContextFreeGrammar) (string pstring : List String)
    (position fuel j : ℕ) (ch : EarleyChart) (e x comp : EarleyChartEntry) (edge : ℕ)
    (cell : List PCFG.CKYChartEntry) (pe pe2 px : PCFG.CKYChartEntry) (i2 j2 : ℕ)
    (hx : x ∈ ch.getD j []) (hcell : pe2 ∈ cell)
    (hpx : px ∈ cellGet (PCFG.CKYParser.base_chart pg pstring) i2 j2) :
    x ∈ (EarleyParser.processEntry g string position ch e).getD j []
    ∧ x ∈ ((EarleyParser.closeAt g string position fuel ch).1).getD j []
    ∧ EarleyChartEntry.complete e comp edge ≠ e
    ∧ pe2 ∈ PCFG.setAdd cell pe
    ∧ px ∈ cellGet (PCFG.CKYParser.fill_chart pg pstring true) i2 j2 := by
  refine ⟨mem_processEntry g string position ch e j x hx,
    mem_closeAt g string position fuel ch j x hx, ?_,
    setAdd_subset cell pe pe2 hcell,
    mem_fill_chart_of_mem_base pg pstring i2 j2 px hpx⟩
  intro h
  have hd := congrArg (fun t => t.dotted_rule.dot) h
  simp only [EarleyChartEntry.complete, DottedRule.complete] at hd
  omega

/-- Witness for C2 at concrete charts: an entry survives an Earley
operation and a closure loop, completion changes the entry, a cell insert
keeps the cell, and a base entry of the ambiguous grammar survives the
whole backtrace-mode fill. -/
theorem C2_chart_monotonicity_witness :
    (⟨⟨⟨"Word", ["N"]⟩, (0, 0), 0⟩, []⟩ : EarleyChartEntry)
      ∈ (EarleyParser.processEntry unhappinessGrammar ["un", "happy", "ness"] 0
          [[⟨⟨⟨"Word", ["N"]⟩, (0, 0), 0⟩, []⟩]] ⟨⟨⟨"Word", ["N"]⟩, (0, 0), 0⟩, []⟩).getD 0 []
    ∧ (⟨⟨⟨"Word", ["N"]⟩, (0, 0), 0⟩, []⟩ : EarleyChartEntry)
      ∈ ((EarleyParser.closeAt unhappinessGrammar ["un", "happy", "ness"] 0 5
          [[⟨⟨⟨"Word", ["N"]⟩, (0, 0), 0⟩, []⟩]]).1).getD 0 []
    ∧ EarleyChartEntry.complete ⟨⟨⟨"Word", ["N"]⟩, (0, 0), 0⟩, []⟩
        ⟨⟨⟨"Word", ["N"]⟩, (0, 0), 0⟩, []⟩ 0 ≠ ⟨⟨⟨"Word", ["N"]⟩, (0, 0), 0⟩, []⟩
    ∧ PCFG.CKYChartEntry.mk "X" 1 [] ∈ PCFG.setAdd [PCFG.CKYChartEntry.mk "X" 1 []]
        (PCFG.CKYChartEntry.mk "Y" 1 [])
    ∧ PCFG.CKYChartEntry.mk "A" 1 [PCFG.CKYChartEntry.mk "a" 1 []]
        ∈ cellGet (PCFG.CKYParser.fill_chart ambiguousPCFG ["a", "b"] true) 0 1 :=
  C2_chart_monotonicity unhappinessGrammar ambiguousPCFG ["un", "happy", "ness"] ["a", "b"]
    0 5 0 [[⟨⟨⟨"Word", ["N"]⟩, (0, 0), 0⟩, []⟩]] ⟨⟨⟨"Word", ["N"]⟩, (0, 0), 0⟩, []⟩
    ⟨⟨⟨"Word", ["N"]⟩, (0, 0), 0⟩, []⟩ ⟨⟨⟨"Word", ["N"]⟩, (0, 0), 0⟩, []⟩ 0
    [PCFG.CKYChartEntry.mk "X" 1 []] (PCFG.CKYChartEntry.mk "Y" 1 [])
    (PCFG.CKYChartEntry.mk "X" 1 []) (PCFG.CKYChartEntry.mk "A" 1 [PCFG.CKYChartEntry.mk "a" 1 []])
    0 1 (by decide) (List.mem_singleton.mpr rfl)
    (by with_unfolding_all exact List.mem_singleton.mpr rfl)

/-- C5: for every grammar (left-recursive rules and empty productions
included) and every input, the repeat-until-no-change closure loop of the
Earley chart filler reaches its fixed point at every position within the
allotted fuel: positions deduplicate entries, every derivable entry lies
in a finite universe determined by the rules, the input length and the
backpointer symbols, and each non-final pass strictly grows the position,
so the converged flag of fill_chart is always true. -/
theorem C5_earley_closure_terminates (g : ContextFreeGrammar) (string : List String) :
    (EarleyParser.fill_chart g string).2 = true :=
  fill_chart_converged g string

/-- C9, counterexample: the CKY recognize operation does not return a
normal boolean on the empty token sequence; reading chart[0, 0] trips the
lower-triangle guard of the chart and raises ValueError. -/
theorem C9_empty_input_counterexample :
    CKYParser.recognize wordUnGrammar []
      = .error "cannot index into the lower triangle of the chart" := rfl

/-- C9: Empty input.  Corrected.  For every grammar whose rule left sides
are declared variables, the Earley recognize operation on the empty token
sequence returns true iff the grammar derives the empty string transitively
from the start symbol, and false otherwise; but the CKY recognize operation
does not return a normal boolean result at all: it raises ValueError on
every grammar, because _recognize reads chart[0, len(input)] = chart[0, 0]
and _validate_index rejects start not less than end. -/
theorem C9_empty_input (g : ContextFreeGrammar)
    (hleft : ∀ r ∈ g.rulesList, g.vars.contains r.left_side = true) :
    (EarleyParser.recognize g [] = true ↔ Nullable g g.start_variable)
    ∧ CKYParser.recognize g []
        = Except.error "cannot index into the lower triangle of the chart" :=
  ⟨⟨recognize_nil_sound g, recognize_nil_complete g hleft⟩, cky_recognize_nil g⟩

/-- Witness for C9: a concrete grammar with an epsilon production whose
rule left sides are all declared variables. -/
theorem C9_empty_input_witness :
    (∀ r ∈ epsilonGrammar.rulesList,
      epsilonGrammar.vars.contains r.left_side = true)
    ∧ ((EarleyParser.recognize epsilonGrammar [] = true
          ↔ Nullable epsilonGrammar epsilonGrammar.start_variable)
       ∧ CKYParser.recognize epsilonGrammar []
          = Except.error "cannot index into the lower triangle of the chart") :=
  ⟨by decide, C9_empty_input epsilonGrammar (by decide)⟩

/-- C1: Recognition/parse agreement.  Corrected: proved for the
probabilistic CKY parser (the "in particular" clause of the claim), for
every grammar whose rule probabilities are positive: _recognize returns a
log-probability above negative infinity (modelled as ok (some q) with
0 < q, see the header comment) iff _parse returns a non-empty list of
(tree, log-probability) pairs.  The universally quantified form of the
claim fails for the plain CKY parser (see the counterexample). -/
theorem C1_recognition_parse_agreement (g : ProbabilisticContextFreeGrammar)
    (string : List String) (hpos : ∀ r ∈ g.rulesList, 0 < r.prob) :
    (∃ q, PCFG.CKYParser.recognize g string = .ok (some q) ∧ 0 < q)
      ↔ ∃ l, PCFG.CKYParser.parse g string = .ok l ∧ l ≠ [] := by
  cases string with
  | nil =>
    constructor
    · rintro ⟨q, hq, _⟩
      rw [show PCFG.CKYParser.recognize g [] =
          .error "cannot index into the lower triangle of the chart" from rfl] at hq
      cases hq
    · rintro ⟨l, hl, _⟩
      rw [show PCFG.CKYParser.parse g [] =
          .error "cannot index into the lower triangle of the chart" from rfl] at hl
      cases hl
  | cons w ws =>
    have hn : 0 < (w :: ws).length := by simp
    obtain ⟨hshF, hshT, hsym⟩ := PCFG.fill_rel g (w :: ws)
    have hposC := PCFG.chartPos_fill_false g (w :: ws) hpos
    have hrec : PCFG.CKYParser.recognize g (w :: ws)
        = (if (((cellGet (PCFG.CKYParser.fill_chart g (w :: ws) false) 0
              (w :: ws).length).filter (fun e => e.symbol == g.start_variable)).map
              (fun e => e.prob)).isEmpty
           then Except.ok none
           else Except.ok (some (((cellGet (PCFG.CKYParser.fill_chart g (w :: ws) false) 0
              (w :: ws).length).filter (fun e => e.symbol == g.start_variable)).map
              (fun e => e.prob)).sum)) := by
      unfold PCFG.CKYParser.recognize
      dsimp only
      rw [gridGetitem_ok _ _ hshF hn]
      rfl
    have hpar : PCFG.CKYParser.parse g (w :: ws)
        = Except.ok (((cellGet (PCFG.CKYParser.fill_chart g (w :: ws) true) 0
            (w :: ws).length).filter (fun e => e.symbol == g.start_variable)).map
            (fun e => (PCFG.CKYParser.build_tree e, e.prob))) := by
      unfold PCFG.CKYParser.parse
      dsimp only
      rw [gridGetitem_ok _ _ hshT hn]
      rfl
    constructor
    · rintro ⟨q, hq, hqpos⟩
      rw [hrec] at hq
      by_cases hE : (((cellGet (PCFG.CKYParser.fill_chart g (w :: ws) false) 0
          (w :: ws).length).filter (fun e => e.symbol == g.start_variable)).map
          (fun e => e.prob)).isEmpty
      · rw [if_pos hE] at hq
        cases hq
      · have hfilne : (cellGet (PCFG.CKYParser.fill_chart g (w :: ws) false) 0
            (w :: ws).length).filter (fun e => e.symbol == g.start_variable) ≠ [] := by
          intro h0
          exact hE (by rw [h0]; rfl)
        obtain ⟨e, he⟩ := List.exists_mem_of_ne_nil _ hfilne
        have hef := List.mem_filter.mp he
        have hstartB := (hsym 0 (w :: ws).length g.start_variable).mp
          ((PCFG.mem_symsOf _ _).mpr ⟨e, hef.1, eq_of_beq hef.2⟩)
        obtain ⟨e2, he2mem, he2sym⟩ := (PCFG.mem_symsOf _ _).mp hstartB
        refine ⟨_, hpar, ?_⟩
        intro hmape
        rw [List.map_eq_nil_iff] at hmape
        have he2fil : e2 ∈ (cellGet (PCFG.CKYParser.fill_chart g (w :: ws) true) 0
            (w :: ws).length).filter (fun e => e.symbol == g.start_variable) :=
          List.mem_filter.mpr ⟨he2mem, by rw [he2sym]; exact beq_self_eq_true _⟩
        rw [hmape] at he2fil
        cases he2fil
    · rintro ⟨l, hl, hlne⟩
      rw [hpar] at hl
      injection hl with hh
      subst hh
      have hfilT : (cellGet (PCFG.CKYParser.fill_chart g (w :: ws) true) 0
          (w :: ws).length).filter (fun e => e.symbol == g.start_variable) ≠ [] := by
        intro h0
        exact hlne (by rw [h0]; rfl)
      obtain ⟨e, he⟩ := List.exists_mem_of_ne_nil _ hfilT
      have hef := List.mem_filter.mp he
      have hstartF := (hsym 0 (w :: ws).length g.start_variable).mpr
        ((PCFG.mem_symsOf _ _).mpr ⟨e, hef.1, eq_of_beq hef.2⟩)
      obtain ⟨e2, he2mem, he2sym⟩ := (PCFG.mem_symsOf _ _).mp hstartF
      have he2fil : e2 ∈ (cellGet (PCFG.CKYParser.fill_chart g (w :: ws) false) 0
          (w :: ws).length).filter (fun e => e.symbol == g.start_variable) :=
        List.mem_filter.mpr ⟨he2mem, by rw [he2sym]; exact beq_self_eq_true _⟩
      have hmapne : ((cellGet (PCFG.CKYParser.fill_chart g (w :: ws) false) 0
          (w :: ws).length).filter (fun e => e.symbol == g.start_variable)).map
          (fun e => e.prob) ≠ [] := by
        intro h0
        rw [List.map_eq_nil_iff] at h0
        rw [h0] at he2fil
        cases he2fil
      have hE : ¬ (((cellGet (PCFG.CKYParser.fill_chart g (w :: ws) false) 0
          (w :: ws).length).filter (fun e => e.symbol == g.start_variable)).map
          (fun e => e.prob)).isEmpty = true := by
        intro h0
        exact hmapne (List.isEmpty_iff.mp h0)
      refine ⟨_, by rw [hrec, if_neg hE], ?_⟩
      refine List.sum_pos _ ?_ hmapne
      intro x hx
      obtain ⟨e3, he3, rfl⟩ := List.mem_map.mp hx
      exact hposC 0 (w :: ws).length e3 (List.mem_filter.mp he3).1

/-- Witness for C1 at a concrete ambiguous probabilistic grammar. -/
theorem C1_recognition_parse_agreement_witness :
    (∀ r ∈ ambiguousPCFG.rulesList, 0 < r.prob)
    ∧ ((∃ q, PCFG.CKYParser.recognize ambiguousPCFG ["a", "b"] = .ok (some q) ∧ 0 < q)
       ↔ ∃ l, PCFG.CKYParser.parse ambiguousPCFG ["a", "b"] = .ok l ∧ l ≠ []) :=
  ⟨by with_unfolding_all decide,
   C1_recognition_parse_agreement ambiguousPCFG ["a", "b"]
     (by with_unfolding_all decide)⟩
end CLParse
